import Mathlib

/-!
# Verification of the ritobin binary decoder (`src/ritobin/binary_read.cpp`)

Shallow embedding of the recursive-descent binary decoder.  The C++ cursor triple
`(beg_, cur_, cap_)` of `BinaryReader` is modelled by the *suffix of remaining
bytes* `[cur_, cap_)` (a `List Nat`); the absolute cursor offset `cur_ - beg_`
is recovered as `total - remaining.length`, and the pointer `e->second` stored
in an error record is represented by the remaining length `cap_ - e->second`
at capture time (an exact re-coordinatization of the pointer arithmetic).

Failure follows the `bin_assert` macro: the first failing check produces a
record (stringified condition, capture point); every enclosing `bin_assert`
appends its own record as the failure unwinds, giving a chain ordered
innermost-first, which `Bin::read_binary` renders in reverse.

The declarations of `bin.hpp` (the numeric type-tag layout, `is_primitive`,
`is_container`, `MAX_PRIMITIVE`, `MAX_COMPLEX`, and the value-variant structs)
are not part of `src/`; they are modelled from the spec where so marked.

Recursion in the value decoder is bounded by explicit fuel; every recursive
call strictly decreases the fuel, and the initial fuel `init_fuel` dominates
the recursion depth of any input (each unit of recursion consumes input bytes),
so fuel exhaustion is unreachable from `process_st`.
-/

set_option maxHeartbeats 1000000
set_option linter.unusedVariables false

namespace Ritobin

/-- Remaining bytes of the input buffer, i.e. the suffix `[cur_, cap_)`. -/
abbrev Bytes := List Nat

/-- Little-endian value of a byte block, the effect of `memcpy` into an
unsigned integer on the (little-endian) host the format targets. -/
def leVal : Bytes → Nat
  | [] => 0
  | b :: bs => b + 256 * leVal bs

/-- `BinaryReader::read<T>` (lines 14-23) for a `w`-byte unsigned integer:
fail if fewer than `w` bytes remain, else take the block and advance. -/
def read_uN (w : Nat) (s : Bytes) : Option (Nat × Bytes) :=
  if w ≤ s.length then some (leVal (s.take w), s.drop w) else none

/-- `BinaryReader::read(std::array<T, SIZE>&)` (lines 25-34) for a raw
`w`-byte block (used for the 4-char magic): verbatim bytes. -/
def read_arr (w : Nat) (s : Bytes) : Option (Bytes × Bytes) :=
  if w ≤ s.length then some (s.take w, s.drop w) else none

/-- `BinaryReader::read(std::string&)` (lines 48-59): u16 length prefix,
then that many raw bytes. -/
def read_str (s : Bytes) : Option (Bytes × Bytes) :=
  match read_uN 2 s with
  | none => none
  | some (n, s1) => if n ≤ s1.length then some (s1.take n, s1.drop n) else none

/-- Modelled from the spec: numeric boundary of the primitive tag range
(`MAX_PRIMITIVE = Type::HASH`), declared in `bin.hpp` which is not in `src/`. -/
def MAX_PRIMITIVE : Nat := 17

/-- Modelled from the spec: numeric boundary of the complex tag range
(`MAX_COMPLEX = Type::FLAG`), declared in `bin.hpp` which is not in `src/`. -/
def MAX_COMPLEX : Nat := 135

/-- Modelled from the spec: the type-tag layout of `bin.hpp` (not in `src/`).
Primitive tags occupy the low range (category bit 0x80 clear):
NONE 0, BOOL 1, I8 2, U8 3, I16 4, U16 5, I32 6, U32 7, I64 8, U64 9,
F32 10, VEC2 11, VEC3 12, VEC4 13, MTX44 14, RGBA 15, STRING 16, HASH 17;
complex tags have the 0x80 bit set:
LIST 128, LIST2 129, POINTER 130, EMBED 131, LINK 132, OPTION 133, MAP 134,
FLAG 135.  `is_primitive` tests the category bit. -/
def is_primitive (t : Nat) : Bool := t < 128

/-- Modelled from the spec: "a container tag is one of List, List2, Option,
Map, Embed, Pointer and all others are scalar/primitive tags" (glossary);
the predicate itself lives in `bin.hpp`, not in `src/`. -/
def is_container (t : Nat) : Bool :=
  t = 128 || t = 129 || t = 130 || t = 131 || t = 133 || t = 134

/-- Validity test of `BinaryReader::read(Type&)` (line 67):
`is_primitive(value) ? value <= MAX_PRIMITIVE : value <= MAX_COMPLEX`. -/
def valid_tag (t : Nat) : Bool :=
  if is_primitive t then t ≤ MAX_PRIMITIVE else t ≤ MAX_COMPLEX

/-- `BinaryReader::read(Type&)` (lines 61-68), success path: one byte, then
the range check.  (The in-place write of the raw byte on the failure path is
modelled separately by `mread_typ`.) -/
def read_typ (s : Bytes) : Option (Nat × Bytes) :=
  match read_uN 1 s with
  | none => none
  | some (t, s1) => if valid_tag t then some (t, s1) else none

/-- Modelled from the spec: byte widths of the fixed-width scalar variants
(declared in `bin.hpp`, not in `src/`): Bool/I8/U8/Flag 1; I16/U16 2;
I32/U32/F32/RGBA/Hash 4; I64/U64/Vec2/Link 8; Vec3 12; Vec4 16; Mtx44 64.
Tags with no fixed-width payload (None, String, containers, unknown) map
to 0 and are never dispatched to the bulk-copy read. -/
def scalar_width (t : Nat) : Nat :=
  if t = 1 ∨ t = 2 ∨ t = 3 ∨ t = 135 then 1
  else if t = 4 ∨ t = 5 then 2
  else if t = 6 ∨ t = 7 ∨ t = 10 ∨ t = 15 ∨ t = 17 then 4
  else if t = 8 ∨ t = 9 ∨ t = 11 ∨ t = 132 then 8
  else if t = 12 then 12
  else if t = 13 then 16
  else if t = 14 then 64
  else 0

/-- Decoded value tree.  Modelled from the spec: the ~20-variant tagged union
of `bin.hpp` (not in `src/`).  All fixed-width scalar variants are collapsed
into `vscalar tag block` carrying the tag and the little-endian value of the
raw byte block (a bijective representation of the wire bytes); `vnone` is the
`None` placeholder variant. -/
inductive Value : Type where
  | vnone : Value
  | vscalar (tag : Nat) (val : Nat) : Value
  | vstring (s : Bytes) : Value
  | vlist (elem : Nat) (items : List Value) : Value
  | vlist2 (elem : Nat) (items : List Value) : Value
  | vopt (elem : Nat) (items : List Value) : Value
  | vmap (kty vty : Nat) (items : List (Value × Value)) : Value
  | vptr (name : Nat) (items : List (Nat × Value)) : Value
  | vembed (name : Nat) (items : List (Nat × Value)) : Value
deriving Repr

/-- One failure record of `BinBinaryReader::error`: the stringified condition
and the captured cursor (as remaining-bytes-at-capture, ≙ `cap_ - start`). -/
abbrev ErrRec := String × Nat

/-- The failure chain, ordered innermost-first as in the C++ vector. -/
abbrev ErrChain := List ErrRec

/-- Result of a decoding step. -/
abbrev DecRes (α : Type) := Except ErrChain α

/-- `bin_assert(reader.read(...))` around a leaf read: on failure start a
fresh chain with this record. -/
def basrt {α : Type} (msg : String) (cap : Nat) : Option α → DecRes α
  | some a => .ok a
  | none => .error [(msg, cap)]

/-- `bin_assert(<pure condition>)`. -/
def bchk (msg : String) (cap : Nat) (b : Bool) : DecRes Unit :=
  if b then .ok () else .error [(msg, cap)]

/-- `bin_assert(<nested decode call>)`: the callee has already recorded its
chain; the enclosing frame appends its own record (C++ `emplace_back`). -/
def bwrap {α : Type} (msg : String) (cap : Nat) : DecRes α → DecRes α
  | .ok a => .ok a
  | .error c => .error (c ++ [(msg, cap)])

/- Stringified conditions of the `bin_assert` sites (`#__VA_ARGS__`).  The two
magic-comparison texts are abbreviated (the C++ stringification spells out the
`std::array` literal). -/
def m_read_magic : String := "reader.read(magic)"
def m_read_unk : String := "reader.read(unk)"
def m_magic_prop : String := "magic == PROP"
def m_read_version : String := "reader.read(version)"
def m_read_linked : String := "read_linked(version >= 2)"
def m_read_entries : String := "read_entries()"
def m_eob : String := "reader.cur_ == reader.cap_"
def m_read_sections : String := "read_sections()"
def m_linked_count : String := "reader.read(linkedFilesCount)"
def m_linked_value : String := "reader.read(linked.value)"
def m_entry_count : String := "reader.read(entryCount)"
def m_entry_hashes : String := "reader.read(entryNameHashes, entryCount)"
def m_read_entry : String := "read_entry(entryKeyHash, entry)"
def m_entry_length : String := "reader.read(entryLength)"
def m_entry_key : String := "reader.read(entryKeyHash.value)"
def m_read_count : String := "reader.read(count)"
def m_read_name : String := "reader.read(name)"
def m_read_type : String := "reader.read(type)"
def m_rvo_item_type : String := "read_value_of(item, type)"
def m_false : String := "false"
def m_read_value_name : String := "reader.read(value.name)"
def m_read_size : String := "reader.read(size)"
def m_boundary : String := "reader.position() == position + size"
def m_entry_boundary : String := "reader.position() == position + entryLength"
def m_read_value_value : String := "reader.read(value.value)"
def m_read_valueType : String := "reader.read(value.valueType)"
def m_not_container : String := "!is_container(value.valueType)"
def m_read_keyType : String := "reader.read(value.keyType)"
def m_is_primitive_key : String := "is_primitive(value.keyType)"
def m_rvo_item_vty : String := "read_value_of(item, value.valueType)"
def m_rvo_key : String := "read_value_of(key, value.keyType)"
def m_fuel : String := "fuel"

mutual

/-- `BinBinaryReader::read_value_of` (lines 182-187): build the default
variant for the tag (`ValueHelper::from_type`, modelled from the spec:
every tag outside the known set dispatches to the `None` visitor) and visit.
The scalar branch is `read_value_visit(T&)` (lines 296-300); the string
falls under the same template with `value.value : std::string`; the `None`
branch is `read_value_visit(None&)` (lines 189-192), `bin_assert(false)`. -/
def read_value_of (fuel : Nat) (ty : Nat) (s : Bytes) : DecRes (Value × Bytes) :=
  match fuel with
  | 0 => .error [(m_fuel, s.length)]
  | fuel + 1 =>
    if ty = 16 then
      match read_str s with
      | some (v, s1) => .ok (.vstring v, s1)
      | none => .error [(m_read_value_value, s.length)]
    else if ty = 128 then read_list_v fuel s
    else if ty = 129 then read_list2_v fuel s
    else if ty = 130 then read_ptr_v fuel s
    else if ty = 131 then read_embed_v fuel s
    else if ty = 133 then read_opt_v fuel s
    else if ty = 134 then read_map_v fuel s
    else if scalar_width ty = 0 then
      .error [(m_false, s.length)]
    else
      match read_uN (scalar_width ty) s with
      | some (v, s1) => .ok (.vscalar ty v, s1)
      | none => .error [(m_read_value_value, s.length)]
  termination_by structural fuel

/-- The field loop shared verbatim by entry/Embed/Pointer decoding
(lines 171-177, 201-207, 222-228): `count` triples of
(u32 name hash, validated tag, recursively decoded value). -/
def read_fields (fuel : Nat) (count : Nat) (s : Bytes) :
    DecRes (List (Nat × Value) × Bytes) :=
  match fuel with
  | 0 => .error [(m_fuel, s.length)]
  | fuel + 1 =>
    match count with
    | 0 => .ok ([], s)
    | count + 1 =>
      match basrt m_read_name s.length (read_uN 4 s) with
      | .error e => .error e
      | .ok (name, s1) =>
        match basrt m_read_type s1.length (read_typ s1) with
        | .error e => .error e
        | .ok (ty, s2) =>
          match bwrap m_rvo_item_type s2.length (read_value_of fuel ty s2) with
          | .error e => .error e
          | .ok (v, s3) =>
            match read_fields fuel count s3 with
            | .error e => .error e
            | .ok (rest, s4) => .ok ((name, v) :: rest, s4)
  termination_by structural fuel

/-- The element loop of `read_value_visit(List&)` / `(List2&)`
(lines 253-256, 269-272). -/
def read_list_items (fuel ty count : Nat) (s : Bytes) :
    DecRes (List Value × Bytes) :=
  match fuel with
  | 0 => .error [(m_fuel, s.length)]
  | fuel + 1 =>
    match count with
    | 0 => .ok ([], s)
    | count + 1 =>
      match bwrap m_rvo_item_vty s.length (read_value_of fuel ty s) with
      | .error e => .error e
      | .ok (v, s1) =>
        match read_list_items fuel ty count s1 with
        | .error e => .error e
        | .ok (rest, s2) => .ok (v :: rest, s2)
  termination_by structural fuel

/-- The pair loop of `read_value_visit(Map&)` (lines 287-291). -/
def read_map_items (fuel kty vty count : Nat) (s : Bytes) :
    DecRes (List (Value × Value) × Bytes) :=
  match fuel with
  | 0 => .error [(m_fuel, s.length)]
  | fuel + 1 =>
    match count with
    | 0 => .ok ([], s)
    | count + 1 =>
      match bwrap m_rvo_key s.length (read_value_of fuel kty s) with
      | .error e => .error e
      | .ok (k, s1) =>
        match bwrap m_rvo_item_vty s1.length (read_value_of fuel vty s1) with
        | .error e => .error e
        | .ok (v, s2) =>
          match read_map_items fuel kty vty count s2 with
          | .error e => .error e
          | .ok (rest, s3) => .ok ((k, v) :: rest, s3)
  termination_by structural fuel

/-- The size-prefixed body shared verbatim by `read_value_visit(Embed&)`
(lines 198-208) and the non-null arm of `read_value_visit(Pointer&)`
(lines 219-229): u32 byte length, position capture, u16 field count, the
field loop, and the boundary assertion
`reader.position() == position + size` (in suffix coordinates:
`remaining-at-capture = remaining-now + size`). -/
def read_embed_body (fuel : Nat) (s : Bytes) :
    DecRes (List (Nat × Value) × Bytes) :=
  match fuel with
  | 0 => .error [(m_fuel, s.length)]
  | fuel + 1 =>
    match basrt m_read_size s.length (read_uN 4 s) with
    | .error e => .error e
    | .ok (size, s1) =>
      match basrt m_read_count s1.length (read_uN 2 s1) with
      | .error e => .error e
      | .ok (count, s2) =>
        match read_fields fuel count s2 with
        | .error e => .error e
        | .ok (items, s3) =>
          match bchk m_boundary s3.length (s1.length == s3.length + size) with
          | .error e => .error e
          | .ok _ => .ok (items, s3)
  termination_by structural fuel

/-- `read_value_visit(Embed&)` (lines 194-210): u32 class-name hash, then
the size-prefixed body. -/
def read_embed_v (fuel : Nat) (s : Bytes) : DecRes (Value × Bytes) :=
  match fuel with
  | 0 => .error [(m_fuel, s.length)]
  | fuel + 1 =>
    match basrt m_read_value_name s.length (read_uN 4 s) with
    | .error e => .error e
    | .ok (name, s1) =>
      match read_embed_body fuel s1 with
      | .error e => .error e
      | .ok (items, s2) => .ok (.vembed name items, s2)
  termination_by structural fuel

/-- `read_value_visit(Pointer&)` (lines 212-231): u32 class-name hash;
hash 0 is the null sentinel (stop, no further bytes); otherwise the same
size-prefixed body as Embed. -/
def read_ptr_v (fuel : Nat) (s : Bytes) : DecRes (Value × Bytes) :=
  match fuel with
  | 0 => .error [(m_fuel, s.length)]
  | fuel + 1 =>
    match basrt m_read_value_name s.length (read_uN 4 s) with
    | .error e => .error e
    | .ok (name, s1) =>
      if name = 0 then .ok (.vptr 0 [], s1)
      else
        match read_embed_body fuel s1 with
        | .error e => .error e
        | .ok (items, s2) => .ok (.vptr name items, s2)
  termination_by structural fuel

/-- `read_value_visit(Option&)` (lines 233-243): element tag (must not be a
container), u8 presence count, at most one element. -/
def read_opt_v (fuel : Nat) (s : Bytes) : DecRes (Value × Bytes) :=
  match fuel with
  | 0 => .error [(m_fuel, s.length)]
  | fuel + 1 =>
    match basrt m_read_valueType s.length (read_typ s) with
    | .error e => .error e
    | .ok (vty, s1) =>
      match bchk m_not_container s1.length (!is_container vty) with
      | .error e => .error e
      | .ok _ =>
        match basrt m_read_count s1.length (read_uN 1 s1) with
        | .error e => .error e
        | .ok (cnt, s2) =>
          if cnt = 0 then .ok (.vopt vty [], s2)
          else
            match bwrap m_rvo_item_vty s2.length (read_value_of fuel vty s2) with
            | .error e => .error e
            | .ok (v, s3) => .ok (.vopt vty [v], s3)
  termination_by structural fuel

/-- `read_value_visit(List&)` (lines 245-259): element tag (must not be a
container), u32 byte length, position capture, u32 count, elements,
boundary assertion. -/
def read_list_v (fuel : Nat) (s : Bytes) : DecRes (Value × Bytes) :=
  match fuel with
  | 0 => .error [(m_fuel, s.length)]
  | fuel + 1 =>
    match basrt m_read_valueType s.length (read_typ s) with
    | .error e => .error e
    | .ok (vty, s1) =>
      match bchk m_not_container s1.length (!is_container vty) with
      | .error e => .error e
      | .ok _ =>
        match basrt m_read_size s1.length (read_uN 4 s1) with
        | .error e => .error e
        | .ok (size, s2) =>
          match basrt m_read_count s2.length (read_uN 4 s2) with
          | .error e => .error e
          | .ok (count, s3) =>
            match read_list_items fuel vty count s3 with
            | .error e => .error e
            | .ok (items, s4) =>
              match bchk m_boundary s4.length (s2.length == s4.length + size) with
              | .error e => .error e
              | .ok _ => .ok (.vlist vty items, s4)
  termination_by structural fuel

/-- `read_value_visit(List2&)` (lines 261-275): wire-identical to List,
distinct variant tag preserved. -/
def read_list2_v (fuel : Nat) (s : Bytes) : DecRes (Value × Bytes) :=
  match fuel with
  | 0 => .error [(m_fuel, s.length)]
  | fuel + 1 =>
    match basrt m_read_valueType s.length (read_typ s) with
    | .error e => .error e
    | .ok (vty, s1) =>
      match bchk m_not_container s1.length (!is_container vty) with
      | .error e => .error e
      | .ok _ =>
        match basrt m_read_size s1.length (read_uN 4 s1) with
        | .error e => .error e
        | .ok (size, s2) =>
          match basrt m_read_count s2.length (read_uN 4 s2) with
          | .error e => .error e
          | .ok (count, s3) =>
            match read_list_items fuel vty count s3 with
            | .error e => .error e
            | .ok (items, s4) =>
              match bchk m_boundary s4.length (s2.length == s4.length + size) with
              | .error e => .error e
              | .ok _ => .ok (.vlist2 vty items, s4)
  termination_by structural fuel

/-- `read_value_visit(Map&)` (lines 277-294): key tag (must be primitive),
value tag (must not be a container), u32 byte length, position capture,
u32 pair count, pairs, boundary assertion. -/
def read_map_v (fuel : Nat) (s : Bytes) : DecRes (Value × Bytes) :=
  match fuel with
  | 0 => .error [(m_fuel, s.length)]
  | fuel + 1 =>
    match basrt m_read_keyType s.length (read_typ s) with
    | .error e => .error e
    | .ok (kty, s1) =>
      match bchk m_is_primitive_key s1.length (is_primitive kty) with
      | .error e => .error e
      | .ok _ =>
        match basrt m_read_valueType s1.length (read_typ s1) with
        | .error e => .error e
        | .ok (vty, s2) =>
          match bchk m_not_container s2.length (!is_container vty) with
          | .error e => .error e
          | .ok _ =>
            match basrt m_read_size s2.length (read_uN 4 s2) with
            | .error e => .error e
            | .ok (size, s3) =>
              match basrt m_read_count s3.length (read_uN 4 s3) with
              | .error e => .error e
              | .ok (count, s4) =>
                match read_map_items fuel kty vty count s4 with
                | .error e => .error e
                | .ok (items, s5) =>
                  match bchk m_boundary s5.length (s3.length == s5.length + size) with
                  | .error e => .error e
                  | .ok _ => .ok (.vmap kty vty items, s5)

end

/-- `BinBinaryReader::read_entry` (lines 164-180): u32 byte length, position
capture (immediately after the length), u32 key hash, u16 field count, the
field loop, boundary assertion.  Returns (key hash, fields). -/
def read_entry (fuel : Nat) (s : Bytes) :
    DecRes ((Nat × List (Nat × Value)) × Bytes) :=
  match basrt m_entry_length s.length (read_uN 4 s) with
  | .error e => .error e
  | .ok (entryLength, s1) =>
    match basrt m_entry_key s1.length (read_uN 4 s1) with
    | .error e => .error e
    | .ok (keyHash, s2) =>
      match basrt m_read_count s2.length (read_uN 2 s2) with
      | .error e => .error e
      | .ok (count, s3) =>
        match read_fields fuel count s3 with
        | .error e => .error e
        | .ok (items, s4) =>
          match bchk m_entry_boundary s4.length
              (s1.length == s4.length + entryLength) with
          | .error e => .error e
          | .ok _ => .ok ((keyHash, items), s4)

/-- The entry loop of `read_entries` (lines 154-159): one `(key hash → Embed)`
pair per name hash from the leading block; the Embed's class-name hash is the
name hash, the map key is the per-entry key hash. -/
def read_entry_list (fuel : Nat) (hashes : List Nat) (s : Bytes) :
    DecRes (List (Value × Value) × Bytes) :=
  match hashes with
  | [] => .ok ([], s)
  | h :: rest =>
    match bwrap m_read_entry s.length (read_entry fuel s) with
    | .error e => .error e
    | .ok ((keyHash, items), s1) =>
      match read_entry_list fuel rest s1 with
      | .error e => .error e
      | .ok (pairs, s2) => .ok ((.vscalar 17 keyHash, .vembed h items) :: pairs, s2)

/-- `w`-byte little-endian chunks, the element split of
`BinaryReader::read(std::vector<T>&, size)` (lines 36-46). -/
def leChunksW (w : Nat) : Nat → Bytes → List Nat
  | 0, _ => []
  | n + 1, s => leVal (s.take w) :: leChunksW w n (s.drop w)

/-- `reader.read(entryNameHashes, entryCount)`: the contiguous u32 name-hash
block (lines 36-46 instantiated at `uint32_t`). -/
def read_hashes (n : Nat) (s : Bytes) : Option (List Nat × Bytes) :=
  if 4 * n ≤ s.length then some (leChunksW 4 n s, s.drop (4 * n)) else none

/-- `BinBinaryReader::read_entries` (lines 148-162): u32 entry count, the
name-hash block, then the entry loop; yields the `entries` Map value
(`Map{ Type::HASH, Type::EMBED, ... }`). -/
def read_entries_st (fuel : Nat) (s : Bytes) : DecRes (Value × Bytes) :=
  match basrt m_entry_count s.length (read_uN 4 s) with
  | .error e => .error e
  | .ok (entryCount, s1) =>
    match basrt m_entry_hashes s1.length (read_hashes entryCount s1) with
    | .error e => .error e
    | .ok (hashes, s2) =>
      match read_entry_list fuel hashes s2 with
      | .error e => .error e
      | .ok (pairs, s3) => .ok (.vmap 17 131 pairs, s3)

/-- The string loop of `read_linked` (lines 138-142). -/
def read_linked_items (n : Nat) (s : Bytes) : DecRes (List Value × Bytes) :=
  match n with
  | 0 => .ok ([], s)
  | n + 1 =>
    match basrt m_linked_value s.length (read_str s) with
    | .error e => .error e
    | .ok (v, s1) =>
      match read_linked_items n s1 with
      | .error e => .error e
      | .ok (rest, s2) => .ok (.vstring v :: rest, s2)

/-- `BinBinaryReader::read_linked` (lines 133-146): when `hasLinks`, a u32
count then that many length-prefixed strings; the `linked` section value
(`List{ Type::STRING, ... }`) is produced in both cases. -/
def read_linked_st (hasLinks : Bool) (s : Bytes) : DecRes (Value × Bytes) :=
  if hasLinks then
    match basrt m_linked_count s.length (read_uN 4 s) with
    | .error e => .error e
    | .ok (n, s1) =>
      match read_linked_items n s1 with
      | .error e => .error e
      | .ok (items, s2) => .ok (.vlist 16 items, s2)
  else .ok (.vlist 16 [], s)

/-- The section table `bin.sections`, in `emplace` order. -/
abbrev Sections := List (String × Value)

/-- The 4-byte magic "PROP". -/
def PROPb : Bytes := [80, 82, 79, 80]

/-- The 4-byte magic "PTCH". -/
def PTCHb : Bytes := [80, 84, 67, 72]

/-- `read_sections` after the magic/patch detection (lines 123-128): magic
validation, version, `linked`, `entries`.  The first component is the section
table as mutated so far, returned also on failure (the C++ `bin.sections` is
updated in place).  The final end-of-buffer assert (line 129) lives in
`read_sections_st`. -/
def read_sections_rest (fuel : Nat) (secs : Sections) (magic : Bytes)
    (s : Bytes) : Sections × DecRes Bytes :=
  match bchk m_magic_prop s.length (magic == PROPb) with
  | .error e => (secs, .error e)
  | .ok _ =>
    match basrt m_read_version s.length (read_uN 4 s) with
    | .error e => (secs, .error e)
    | .ok (version, s1) =>
      let secs1 := secs ++ [("version", .vscalar 7 version)]
      match bwrap m_read_linked s1.length
          (read_linked_st (decide (2 ≤ version)) s1) with
      | .error e => (secs1, .error e)
      | .ok (linkedVal, s2) =>
        let secs2 := secs1 ++ [("linked", linkedVal)]
        match bwrap m_read_entries s2.length (read_entries_st fuel s2) with
        | .error e => (secs2, .error e)
        | .ok (entriesVal, s3) =>
          (secs2 ++ [("entries", entriesVal)], .ok s3)

/-- `read_sections` up to but excluding its final end-of-buffer assert
(lines 111-128): 4-byte magic; on "PTCH" discard 8 opaque bytes and read a
second magic, recording `type = "PTCH"`, else record `type = "PROP"`; then
the remaining steps.  The `type` section is emplaced before the magic
validation, exactly as in the source. -/
def read_sections_core (fuel : Nat) (s : Bytes) : Sections × DecRes Bytes :=
  match basrt m_read_magic s.length (read_arr 4 s) with
  | .error e => ([], .error e)
  | .ok (magic0, s0) =>
    if magic0 == PTCHb then
      match basrt m_read_unk s0.length (read_uN 8 s0) with
      | .error e => ([], .error e)
      | .ok (_, s1) =>
        match basrt m_read_magic s1.length (read_arr 4 s1) with
        | .error e => ([], .error e)
        | .ok (magic1, s2) =>
          read_sections_rest fuel [("type", .vstring PTCHb)] magic1 s2
    else
      read_sections_rest fuel [("type", .vstring PROPb)] magic0 s0

/-- `BinBinaryReader::read_sections` (lines 111-131): the steps above followed
by `bin_assert(reader.cur_ == reader.cap_)` (line 129). -/
def read_sections_st (fuel : Nat) (s : Bytes) : Sections × DecRes Bytes :=
  match read_sections_core fuel s with
  | (secs, .error e) => (secs, .error e)
  | (secs, .ok s3) =>
    match bchk m_eob s3.length s3.isEmpty with
    | .error e => (secs, .error e)
    | .ok _ => (secs, .ok s3)

/-- Initial fuel.  Every recursion step of the value decoder consumes input
bytes, so the recursion depth of any run is bounded by the input length;
this bound dominates it with room to spare. -/
def init_fuel (s : Bytes) : Nat := 4 * s.length + 8

/-- `BinBinaryReader::process` (lines 100-104): clear the section table
(`prior` is discarded), then `bin_assert(read_sections())`.  Returns the
section table as left behind (also on failure) and the outcome. -/
def process_st (prior : Sections) (s : Bytes) : Sections × DecRes Unit :=
  match read_sections_st (init_fuel s) s with
  | (secs, .ok _) => (secs, .ok ())
  | (secs, .error e) => (secs, .error (e ++ [(m_read_sections, s.length)]))

/-- The diagnostic rendering of `Bin::read_binary` (lines 307-313): iterate
the record chain in reverse (outermost first); each line is the stringified
condition, " @ ", and `std::to_string(data - e->second)` — in suffix
coordinates `data - start = remaining-at-capture - total`, an `Int`. -/
def render_error (total : Nat) (recs : ErrChain) : String :=
  recs.reverse.foldl
    (fun acc r => acc ++ r.1 ++ " @ " ++ toString ((r.2 : Int) - (total : Int)) ++ "\n")
    ""

/-- `Bin::read_binary` (lines 304-316): run `process` on a fresh reader; on
failure render the chain and raise it (`throw std::runtime_error`), returning
no document. -/
def read_binary (data : Bytes) : Except String Sections :=
  match process_st [] data with
  | (secs, .ok _) => .ok secs
  | (_, .error e) => .error (render_error data.length e)

/-- `BinaryReader::read<T>` (lines 14-23) in mutation style: the result is
(return value, cursor state, destination object).  Also covers
`read(std::array<T,SIZE>&)` (lines 25-34, with `w = sizeof(T)*SIZE`) and the
hash reads (lines 70-87), whose failure paths leave both untouched. -/
def mread_fix (w : Nat) (s : Bytes) (dest : Nat) : Bool × Bytes × Nat :=
  if w ≤ s.length then (true, s.drop w, leVal (s.take w)) else (false, s, dest)

/-- `BinaryReader::read(std::vector<T>&, size)` (lines 36-46) in mutation
style: bounds check before `resize`, so failure touches nothing. -/
def mread_dyn (w n : Nat) (s : Bytes) (dest : List Nat) :
    Bool × Bytes × List Nat :=
  if w * n ≤ s.length then (true, s.drop (w * n), leChunksW w n s)
  else (false, s, dest)

/-- `BinaryReader::read(std::string&)` (lines 48-59) in mutation style: the
u16 length prefix is read first (advancing the cursor on its success); if the
payload is short the function returns false with the cursor still advanced
past the prefix — there is no rewind in the source. -/
def mread_str (s : Bytes) (dest : Bytes) : Bool × Bytes × Bytes :=
  match mread_fix 2 s 0 with
  | (false, s1, _) => (false, s1, dest)
  | (true, s1, n) =>
    if n ≤ s1.length then (true, s1.drop n, s1.take n)
    else (false, s1, dest)

/-- `BinaryReader::read(Type&)` (lines 61-68) in mutation style: the raw byte
is written into the destination (`value = static_cast<Type>(raw)`) and the
cursor advanced before the range check decides the return value. -/
def mread_typ (s : Bytes) (dest : Nat) : Bool × Bytes × Nat :=
  match mread_fix 1 s 0 with
  | (false, s1, _) => (false, s1, dest)
  | (true, s1, raw) => (valid_tag raw, s1, raw)

/-- Transport of an Embed decode result to a Pointer decode result: same
class-name hash, same fields, same final cursor, `vembed` replaced by
`vptr`; failures carried over unchanged. -/
def embed_to_ptr : DecRes (Value × Bytes) → DecRes (Value × Bytes)
  | .ok (.vembed n items, s) => .ok (.vptr n items, s)
  | x => x

/-- The node is not the `None` placeholder variant. -/
def notNone : Value → Bool
  | .vnone => false
  | _ => true

/-- Node-local nesting well-formedness: a List/List2/Option records a
non-container element type; a Map records a primitive key type and a
non-container value type.  (`is_container` is the spec-modelled predicate:
container = List, List2, Option, Map, Embed, Pointer.) -/
def nestOk : Value → Bool
  | .vlist e _ => !is_container e
  | .vlist2 e _ => !is_container e
  | .vopt e _ => !is_container e
  | .vmap k t _ => is_primitive k && !is_container t
  | _ => true

mutual

/-- Every node of a value tree satisfies the node-local predicate `p`. -/
def vAll (p : Value → Bool) : Value → Bool
  | .vnone => p .vnone
  | .vscalar t v => p (.vscalar t v)
  | .vstring s => p (.vstring s)
  | .vlist e its => p (.vlist e its) && vAllL p its
  | .vlist2 e its => p (.vlist2 e its) && vAllL p its
  | .vopt e its => p (.vopt e its) && vAllL p its
  | .vmap k t its => p (.vmap k t its) && vAllP p its
  | .vptr n its => p (.vptr n its) && vAllN p its
  | .vembed n its => p (.vembed n its) && vAllN p its

/-- `vAll` over a list of values. -/
def vAllL (p : Value → Bool) : List Value → Bool
  | [] => true
  | v :: rest => vAll p v && vAllL p rest

/-- `vAll` over both components of (key, value) pairs. -/
def vAllP (p : Value → Bool) : List (Value × Value) → Bool
  | [] => true
  | (k, v) :: rest => vAll p k && vAll p v && vAllP p rest

/-- `vAll` over the value components of (name, value) pairs. -/
def vAllN (p : Value → Bool) : List (Nat × Value) → Bool
  | [] => true
  | (_, v) :: rest => vAll p v && vAllN p rest

end

/-
========================================================================
Theorems.
========================================================================
-/

@[simp] theorem basrt_some {α : Type} (msg : String) (cap : Nat) (a : α) :
    basrt msg cap (some a) = .ok a := rfl

@[simp] theorem basrt_none {α : Type} (msg : String) (cap : Nat) :
    basrt msg cap (none : Option α) = .error [(msg, cap)] := rfl

@[simp] theorem bwrap_ok {α : Type} (msg : String) (cap : Nat) (a : α) :
    bwrap msg cap (.ok a) = .ok a := rfl

@[simp] theorem bwrap_err {α : Type} (msg : String) (cap : Nat) (e : ErrChain) :
    bwrap msg cap (.error e : DecRes α) = .error (e ++ [(msg, cap)]) := rfl

@[simp] theorem bchk_true (msg : String) (cap : Nat) :
    bchk msg cap true = .ok () := rfl

@[simp] theorem bchk_false (msg : String) (cap : Nat) :
    bchk msg cap false = .error [(msg, cap)] := rfl

/-- Inversion of a successful fixed-width read. -/
theorem read_uN_ok {w : Nat} {s : Bytes} {v : Nat} {r : Bytes}
    (h : read_uN w s = some (v, r)) :
    w ≤ s.length ∧ v = leVal (s.take w) ∧ r = s.drop w := by
  unfold read_uN at h
  split at h
  · rename_i hw
    simp only [Option.some.injEq, Prod.mk.injEq] at h
    exact ⟨hw, h.1.symm, h.2.symm⟩
  · simp at h

/-- Inversion of a successful block read. -/
theorem read_arr_ok {w : Nat} {s : Bytes} {v r : Bytes}
    (h : read_arr w s = some (v, r)) :
    w ≤ s.length ∧ v = s.take w ∧ r = s.drop w := by
  unfold read_arr at h
  split at h
  · rename_i hw
    simp only [Option.some.injEq, Prod.mk.injEq] at h
    exact ⟨hw, h.1.symm, h.2.symm⟩
  · simp at h

/-- Inversion of a successful tag read. -/
theorem read_typ_ok {s : Bytes} {t : Nat} {r : Bytes}
    (h : read_typ s = some (t, r)) :
    1 ≤ s.length ∧ t = leVal (s.take 1) ∧ valid_tag t = true ∧ r = s.drop 1 := by
  unfold read_typ at h
  cases hu : read_uN 1 s with
  | none => rw [hu] at h; exact Option.noConfusion h
  | some p =>
    obtain ⟨u, s1⟩ := p
    rw [hu] at h
    obtain ⟨h1, h2, h3⟩ := read_uN_ok hu
    simp only at h
    split at h
    · rename_i hv
      simp only [Option.some.injEq, Prod.mk.injEq] at h
      obtain ⟨htu, hsr⟩ := h
      subst htu
      subst hsr
      exact ⟨h1, h2, hv, h3⟩
    · exact Option.noConfusion h

/-- A fixed-width read at a block boundary. -/
theorem read_uN_append {w : Nat} {c : Bytes} (r : Bytes) (h : c.length = w) :
    read_uN w (c ++ r) = some (leVal c, r) := by
  subst h
  simp [read_uN, List.take_left, List.drop_left, List.length_append]

/-- A block read at a block boundary. -/
theorem read_arr_append {w : Nat} {c : Bytes} (r : Bytes) (h : c.length = w) :
    read_arr w (c ++ r) = some (c, r) := by
  subst h
  simp [read_arr, List.take_left, List.drop_left, List.length_append]

/-- C3, as stated, is refuted by `read(Type&)` on the single out-of-range tag
byte 0x50: the read fails (returns false) yet the cursor has advanced past
the byte and the destination holds the raw tag, so neither is "left exactly
as it was".  (`mread_typ` is `BinaryReader::read(Type&)`, lines 61-68, with
the cursor as the suffix of remaining bytes.) -/
theorem claim_C3_counterexample :
    (mread_typ [80] 0).1 = false ∧
    ¬ ((mread_typ [80] 0).2.1 = [80] ∧ (mread_typ [80] 0).2.2 = 0) := by
  constructor
  · rfl
  · intro hc
    exact absurd hc.1 (by decide)

/-- C3 (amended): failed reads leave cursor and destination unmodified for
the fixed-width scalar, fixed-size array, hash (all `mread_fix`) and dynamic
array (`mread_dyn`) reads; for the length-prefixed string a failure either
leaves both untouched (short length prefix) or leaves the destination
untouched with the cursor advanced exactly past the 2-byte length prefix
(short payload); for the type tag a failure either leaves both untouched
(empty input) or leaves the cursor advanced past the tag byte and the
destination overwritten with the invalid raw tag. -/
theorem claim_C3_amended :
    (∀ w s d, (mread_fix w s d).1 = false → mread_fix w s d = (false, s, d)) ∧
    (∀ w n s d, (mread_dyn w n s d).1 = false → mread_dyn w n s d = (false, s, d)) ∧
    (∀ s d, (mread_str s d).1 = false →
      (s.length < 2 ∧ mread_str s d = (false, s, d)) ∨
      (2 ≤ s.length ∧ s.length - 2 < leVal (s.take 2) ∧
        mread_str s d = (false, s.drop 2, d))) ∧
    (∀ s d, (mread_typ s d).1 = false →
      (s = [] ∧ mread_typ s d = (false, s, d)) ∨
      (1 ≤ s.length ∧ valid_tag (leVal (s.take 1)) = false ∧
        mread_typ s d = (false, s.drop 1, leVal (s.take 1)))) := by
  refine ⟨?_, ?_, ?_, ?_⟩
  · intro w s d h
    unfold mread_fix at h ⊢
    split at h
    · exact absurd h (by simp)
    · rename_i hc
      rw [if_neg hc]
  · intro w n s d h
    unfold mread_dyn at h ⊢
    split at h
    · exact absurd h (by simp)
    · rename_i hc
      rw [if_neg hc]
  · intro s d h
    by_cases h2 : 2 ≤ s.length
    · have hfix : mread_fix 2 s 0 = (true, s.drop 2, leVal (s.take 2)) := by
        unfold mread_fix
        rw [if_pos h2]
      by_cases hp : leVal (s.take 2) ≤ (s.drop 2).length
      · exfalso
        have hev : mread_str s d =
            (true, (s.drop 2).drop (leVal (s.take 2)),
              (s.drop 2).take (leVal (s.take 2))) := by
          unfold mread_str
          rw [hfix]
          simp only
          rw [if_pos hp]
        rw [hev] at h
        exact absurd h (by simp)
      · right
        have hlen : s.length - 2 < leVal (s.take 2) := by
          rw [List.length_drop] at hp
          omega
        refine ⟨h2, hlen, ?_⟩
        unfold mread_str
        rw [hfix]
        simp only
        rw [if_neg hp]
    · left
      have hfix : mread_fix 2 s 0 = (false, s, 0) := by
        unfold mread_fix
        rw [if_neg h2]
      refine ⟨by omega, ?_⟩
      unfold mread_str
      rw [hfix]
  · intro s d h
    by_cases hl : 1 ≤ s.length
    · have hfix : mread_fix 1 s 0 = (true, s.drop 1, leVal (s.take 1)) := by
        unfold mread_fix
        rw [if_pos hl]
      have hev : mread_typ s d = (valid_tag (leVal (s.take 1)), s.drop 1, leVal (s.take 1)) := by
        unfold mread_typ
        rw [hfix]
      rw [hev] at h
      have hv : valid_tag (leVal (s.take 1)) = false := by simpa using h
      right
      refine ⟨hl, hv, ?_⟩
      rw [hev, hv]
    · left
      have hfix : mread_fix 1 s 0 = (false, s, 0) := by
        unfold mread_fix
        rw [if_neg hl]
      have hs : s = [] := by
        cases s with
        | nil => rfl
        | cons a t => exact absurd (by simp : 1 ≤ (a :: t).length) hl
      refine ⟨hs, ?_⟩
      unfold mread_typ
      rw [hfix]

/-- Closed instances of C3 (amended): a failing 4-byte read on a 2-byte
buffer touches nothing; a failing string read on the bare length prefix
`[2, 0]` leaves the destination untouched with the cursor advanced past the
prefix. -/
theorem claim_C3_amended_witness :
    (mread_fix 4 [1, 2] 7 = (false, [1, 2], 7)) ∧
    ((([2, 0] : Bytes).length < 2 ∧ mread_str [2, 0] [9] = (false, [2, 0], [9])) ∨
      (2 ≤ ([2, 0] : Bytes).length ∧
        ([2, 0] : Bytes).length - 2 < leVal (([2, 0] : Bytes).take 2) ∧
        mread_str [2, 0] [9] = (false, ([2, 0] : Bytes).drop 2, [9]))) :=
  ⟨claim_C3_amended.1 4 [1, 2] 7 (by decide),
   claim_C3_amended.2.2.1 [2, 0] [9] (by decide)⟩

/-- C4: the failing decode of the 4-byte buffer "PROP" produces two records
(the version read underrun, then the enclosing `read_sections()` frame); the
rendered message is one line per record, outermost first, but each offset is
printed as `std::to_string(data - e->second)` — the NEGATED cursor offset —
so the inner line reads "@ -4" where the read began at absolute offset +4.
The spec's "non-negative cursor offset" is the evident intent; the code's
operand order is a slip. -/
theorem claim_C4_offset_negated :
    read_binary [80, 82, 79, 80] =
      .error ("read_sections() @ 0\nreader.read(version) @ -4\n") ∧
    render_error 4 [(m_read_version, 0), (m_read_sections, 4)] =
      m_read_sections ++ " @ " ++ toString (0 : Int) ++ "\n" ++
        m_read_version ++ " @ " ++ toString (-4 : Int) ++ "\n" := by
  constructor <;> rfl

/-- C5, as stated, is refuted on the 4-byte buffer of zeros: the magic check
fails, the decode errors out — yet the caller-visible section table retains
the already-emplaced partial section `type = "PROP"` (the `emplace` at line
121 precedes the magic validation at line 123), so a partially populated
Document *is* observable after a failing decode. -/
theorem claim_C5_counterexample :
    process_st [("stale", Value.vnone)] [0, 0, 0, 0] =
      ([("type", Value.vstring PROPb)],
        .error [(m_magic_prop, 0), (m_read_sections, 4)]) ∧
    (["type"] : List String) ≠ [] := by
  exact ⟨rfl, by decide⟩

/-- The section names produced by the post-magic steps form the
corresponding prefix of the four-section layout. -/
theorem read_sections_rest_keys (fuel : Nat) (x : Value) (magic : Bytes)
    (s : Bytes) :
    ((read_sections_rest fuel [("type", x)] magic s).1).map Prod.fst =
      List.take ((read_sections_rest fuel [("type", x)] magic s).1).length
        ["type", "version", "linked", "entries"] := by
  unfold read_sections_rest
  repeat' split
  all_goals simp

/-- The section names produced by `read_sections` (without the final
end-of-buffer check) form a prefix of the four-section layout. -/
theorem read_sections_core_keys (fuel : Nat) (s : Bytes) :
    ((read_sections_core fuel s).1).map Prod.fst =
      List.take ((read_sections_core fuel s).1).length
        ["type", "version", "linked", "entries"] := by
  unfold read_sections_core
  repeat' split
  all_goals first
    | simp
    | apply read_sections_rest_keys

/-- C5 (amended): the prior contents of the section table are discarded at
the start of each decode call, and on *success* all four sections are
present; but on failure the section table visible to the caller is left in
an intermediate state — the emplace-order prefix of
(`type`, `version`, `linked`, `entries`) completed before the failing check —
rather than being discarded.  (Stated as: the table's keys always form a
prefix of the four-section layout.) -/
theorem claim_C5_amended :
    (∀ prior s, process_st prior s = process_st [] s) ∧
    (∀ prior s, ((process_st prior s).1).map Prod.fst =
      List.take ((process_st prior s).1).length
        ["type", "version", "linked", "entries"]) := by
  refine ⟨fun prior s => rfl, fun prior s => ?_⟩
  unfold process_st read_sections_st
  have hc := read_sections_core_keys (init_fuel s) s
  cases hcore : read_sections_core (init_fuel s) s with
  | mk secs res =>
    rw [hcore] at hc
    cases res with
    | error e => simpa using hc
    | ok s3 =>
      cases hb : bchk m_eob s3.length s3.isEmpty with
      | error e => simpa [hb] using hc
      | ok u => simpa [hb] using hc

/-- Evaluation of a tag read on a cons cell. -/
theorem read_typ_cons (b : Nat) (t : Bytes) :
    read_typ (b :: t) = if valid_tag b then some (b, t) else none := by
  simp [read_typ, read_uN, leVal]

/-- C9, as stated, is refuted: both buffers below decode successfully, yet
the second is the first with the single byte at offset 12 — the low byte of
the first linked string's 16-bit length prefix — changed from 2 to 4.  The
lengthened first string swallows the second string's length prefix, the
second string re-reads as empty, and the buffer still parses to the end:
the modification is silently accepted, with no SizeMismatch or
BufferUnderrun. -/
theorem claim_C9_counterexample :
    (process_st []
      [80, 82, 79, 80, 2, 0, 0, 0, 2, 0, 0, 0, 2, 0, 97, 98, 2, 0, 0, 0,
       0, 0, 0, 0]).2 = .ok () ∧
    (process_st []
      (([80, 82, 79, 80, 2, 0, 0, 0, 2, 0, 0, 0, 2, 0, 97, 98, 2, 0, 0, 0,
         0, 0, 0, 0] : Bytes).set 12 4)).2 = .ok () := by
  exact ⟨rfl, rfl⟩

/-- Corrupting the 32-bit byte-length field of an entry is always caught:
the entry decode fails on its boundary assertion. -/
theorem entry_length_flip (fuel : Nat) (L4 L4' rest : Bytes)
    (v : Nat × List (Nat × Value)) (rem : Bytes)
    (h4 : L4.length = 4) (h4' : L4'.length = 4)
    (h : read_entry fuel (L4 ++ rest) = .ok (v, rem))
    (hne : leVal L4' ≠ leVal L4) :
    read_entry fuel (L4' ++ rest) = .error [(m_entry_boundary, rem.length)] := by
  unfold read_entry at h ⊢
  simp only [read_uN_append rest h4, basrt_some] at h
  simp only [read_uN_append rest h4', basrt_some]
  cases hk : read_uN 4 rest with
  | none => simp [hk] at h
  | some p =>
    obtain ⟨kh, s2⟩ := p
    simp only [hk, basrt_some] at h ⊢
    cases hc : read_uN 2 s2 with
    | none => simp [hc] at h
    | some q =>
      obtain ⟨cnt, s3⟩ := q
      simp only [hc, basrt_some] at h ⊢
      cases hf : read_fields fuel cnt s3 with
      | error e => simp [hf] at h
      | ok r =>
        obtain ⟨items, s4⟩ := r
        simp only [hf] at h ⊢
        cases hbeq : (rest.length == s4.length + leVal L4) with
        | false => simp [hbeq] at h
        | true =>
          simp only [hbeq, bchk_true] at h
          simp only [Except.ok.injEq, Prod.mk.injEq] at h
          have hrem : s4 = rem := h.2
          subst hrem
          have hb : rest.length = s4.length + leVal L4 := beq_iff_eq.mp hbeq
          have hfalse : (rest.length == s4.length + leVal L4') = false := by
            rw [beq_eq_false_iff_ne]
            omega
          simp only [hfalse, bchk_false]

/-- Corrupting the 32-bit byte-length field of an Embed body (shared by the
non-null Pointer) is always caught on the boundary assertion. -/
theorem embed_length_flip (fuel : Nat) (S4 S4' rest : Bytes)
    (its : List (Nat × Value)) (rem : Bytes)
    (h4 : S4.length = 4) (h4' : S4'.length = 4)
    (h : read_embed_body fuel (S4 ++ rest) = .ok (its, rem))
    (hne : leVal S4' ≠ leVal S4) :
    read_embed_body fuel (S4' ++ rest) = .error [(m_boundary, rem.length)] := by
  cases fuel with
  | zero => simp [read_embed_body] at h
  | succ fuel =>
    unfold read_embed_body at h ⊢
    simp only [read_uN_append rest h4, basrt_some] at h
    simp only [read_uN_append rest h4', basrt_some]
    cases hc : read_uN 2 rest with
    | none => simp [hc] at h
    | some q =>
      obtain ⟨cnt, s2⟩ := q
      simp only [hc, basrt_some] at h ⊢
      cases hf : read_fields fuel cnt s2 with
      | error e => simp [hf] at h
      | ok r =>
        obtain ⟨items, s3⟩ := r
        simp only [hf] at h ⊢
        cases hbeq : (rest.length == s3.length + leVal S4) with
        | false => simp [hbeq] at h
        | true =>
          simp only [hbeq, bchk_true] at h
          simp only [Except.ok.injEq, Prod.mk.injEq] at h
          have hrem : s3 = rem := h.2
          subst hrem
          have hb : rest.length = s3.length + leVal S4 := beq_iff_eq.mp hbeq
          have hfalse : (rest.length == s3.length + leVal S4') = false := by
            rw [beq_eq_false_iff_ne]
            omega
          simp only [hfalse, bchk_false]

/-- Corrupting the 32-bit byte-length field of a List is always caught on
the boundary assertion. -/
theorem list_length_flip (fuel : Nat) (t1 : Nat) (S4 S4' rest : Bytes)
    (v : Value) (rem : Bytes)
    (h4 : S4.length = 4) (h4' : S4'.length = 4)
    (h : read_list_v fuel (t1 :: (S4 ++ rest)) = .ok (v, rem))
    (hne : leVal S4' ≠ leVal S4) :
    read_list_v fuel (t1 :: (S4' ++ rest)) = .error [(m_boundary, rem.length)] := by
  cases fuel with
  | zero => simp [read_list_v] at h
  | succ fuel =>
    unfold read_list_v at h ⊢
    rw [read_typ_cons] at h ⊢
    cases hv : valid_tag t1 with
    | false => simp [hv] at h
    | true =>
      simp only [hv, eq_self_iff_true, if_true, basrt_some] at h ⊢
      cases hic : is_container t1 with
      | true => simp [hic] at h
      | false =>
        simp only [hic, Bool.not_false, bchk_true] at h ⊢
        simp only [read_uN_append rest h4, basrt_some] at h
        simp only [read_uN_append rest h4', basrt_some]
        cases hcnt : read_uN 4 rest with
        | none => simp [hcnt] at h
        | some q =>
          obtain ⟨cnt, s3⟩ := q
          simp only [hcnt, basrt_some] at h ⊢
          cases hf : read_list_items fuel t1 cnt s3 with
          | error e => simp [hf] at h
          | ok r =>
            obtain ⟨items, s4⟩ := r
            simp only [hf] at h ⊢
            cases hbeq : (rest.length == s4.length + leVal S4) with
            | false => simp [hbeq] at h
            | true =>
              simp only [hbeq, bchk_true] at h
              simp only [Except.ok.injEq, Prod.mk.injEq] at h
              have hrem : s4 = rem := h.2
              subst hrem
              have hb : rest.length = s4.length + leVal S4 := beq_iff_eq.mp hbeq
              have hfalse : (rest.length == s4.length + leVal S4') = false := by
                rw [beq_eq_false_iff_ne]
                omega
              simp only [hfalse, bchk_false]

/-- Corrupting the 32-bit byte-length field of a List2 is always caught on
the boundary assertion. -/
theorem list2_length_flip (fuel : Nat) (t1 : Nat) (S4 S4' rest : Bytes)
    (v : Value) (rem : Bytes)
    (h4 : S4.length = 4) (h4' : S4'.length = 4)
    (h : read_list2_v fuel (t1 :: (S4 ++ rest)) = .ok (v, rem))
    (hne : leVal S4' ≠ leVal S4) :
    read_list2_v fuel (t1 :: (S4' ++ rest)) = .error [(m_boundary, rem.length)] := by
  cases fuel with
  | zero => simp [read_list2_v] at h
  | succ fuel =>
    unfold read_list2_v at h ⊢
    rw [read_typ_cons] at h ⊢
    cases hv : valid_tag t1 with
    | false => simp [hv] at h
    | true =>
      simp only [hv, eq_self_iff_true, if_true, basrt_some] at h ⊢
      cases hic : is_container t1 with
      | true => simp [hic] at h
      | false =>
        simp only [hic, Bool.not_false, bchk_true] at h ⊢
        simp only [read_uN_append rest h4, basrt_some] at h
        simp only [read_uN_append rest h4', basrt_some]
        cases hcnt : read_uN 4 rest with
        | none => simp [hcnt] at h
        | some q =>
          obtain ⟨cnt, s3⟩ := q
          simp only [hcnt, basrt_some] at h ⊢
          cases hf : read_list_items fuel t1 cnt s3 with
          | error e => simp [hf] at h
          | ok r =>
            obtain ⟨items, s4⟩ := r
            simp only [hf] at h ⊢
            cases hbeq : (rest.length == s4.length + leVal S4) with
            | false => simp [hbeq] at h
            | true =>
              simp only [hbeq, bchk_true] at h
              simp only [Except.ok.injEq, Prod.mk.injEq] at h
              have hrem : s4 = rem := h.2
              subst hrem
              have hb : rest.length = s4.length + leVal S4 := beq_iff_eq.mp hbeq
              have hfalse : (rest.length == s4.length + leVal S4') = false := by
                rw [beq_eq_false_iff_ne]
                omega
              simp only [hfalse, bchk_false]

/-- Corrupting the 32-bit byte-length field of a Map is always caught on
the boundary assertion. -/
theorem map_length_flip (fuel : Nat) (k1 t1 : Nat) (S4 S4' rest : Bytes)
    (v : Value) (rem : Bytes)
    (h4 : S4.length = 4) (h4' : S4'.length = 4)
    (h : read_map_v fuel (k1 :: t1 :: (S4 ++ rest)) = .ok (v, rem))
    (hne : leVal S4' ≠ leVal S4) :
    read_map_v fuel (k1 :: t1 :: (S4' ++ rest)) =
      .error [(m_boundary, rem.length)] := by
  cases fuel with
  | zero => simp [read_map_v] at h
  | succ fuel =>
    unfold read_map_v at h ⊢
    rw [read_typ_cons] at h ⊢
    cases hv : valid_tag k1 with
    | false => simp [hv] at h
    | true =>
      simp only [hv, eq_self_iff_true, if_true, basrt_some] at h ⊢
      cases hip : is_primitive k1 with
      | false => simp [hip] at h
      | true =>
        simp only [hip, bchk_true] at h ⊢
        rw [read_typ_cons] at h ⊢
        cases hv2 : valid_tag t1 with
        | false => simp [hv2] at h
        | true =>
          simp only [hv2, eq_self_iff_true, if_true, basrt_some] at h ⊢
          cases hic : is_container t1 with
          | true => simp [hic] at h
          | false =>
            simp only [hic, Bool.not_false, bchk_true] at h ⊢
            simp only [read_uN_append rest h4, basrt_some] at h
            simp only [read_uN_append rest h4', basrt_some]
            cases hcnt : read_uN 4 rest with
            | none => simp [hcnt] at h
            | some q =>
              obtain ⟨cnt, s4⟩ := q
              simp only [hcnt, basrt_some] at h ⊢
              cases hf : read_map_items fuel k1 t1 cnt s4 with
              | error e => simp [hf] at h
              | ok r =>
                obtain ⟨items, s5⟩ := r
                simp only [hf] at h ⊢
                cases hbeq : (rest.length == s5.length + leVal S4) with
                | false => simp [hbeq] at h
                | true =>
                  simp only [hbeq, bchk_true] at h
                  simp only [Except.ok.injEq, Prod.mk.injEq] at h
                  have hrem : s5 = rem := h.2
                  subst hrem
                  have hb : rest.length = s5.length + leVal S4 := beq_iff_eq.mp hbeq
                  have hfalse : (rest.length == s5.length + leVal S4') = false := by
                    rw [beq_eq_false_iff_ne]
                    omega
                  simp only [hfalse, bchk_false]


/-- C9 (amended): changing the 32-bit byte-length field of any size-checked
region (an Entry body, an Embed or non-null Pointer body, a List, a List2,
a Map) to a different value makes that region's decode — and hence, by
failure propagation, the whole decode — fail on the region's boundary
assertion (a SizeMismatch); but changes inside count fields or string
length prefixes can shift the parse and are not in general detected (the
counterexample exhibits a linked-string length-prefix byte flip that is
silently accepted). -/
theorem claim_C9_amended :
    (∀ fuel L4 L4' rest v rem, L4.length = 4 → L4'.length = 4 →
      read_entry fuel (L4 ++ rest) = .ok (v, rem) → leVal L4' ≠ leVal L4 →
      read_entry fuel (L4' ++ rest) = .error [(m_entry_boundary, rem.length)]) ∧
    (∀ fuel S4 S4' rest its rem, S4.length = 4 → S4'.length = 4 →
      read_embed_body fuel (S4 ++ rest) = .ok (its, rem) → leVal S4' ≠ leVal S4 →
      read_embed_body fuel (S4' ++ rest) = .error [(m_boundary, rem.length)]) ∧
    (∀ fuel t1 S4 S4' rest v rem, S4.length = 4 → S4'.length = 4 →
      read_list_v fuel (t1 :: (S4 ++ rest)) = .ok (v, rem) → leVal S4' ≠ leVal S4 →
      read_list_v fuel (t1 :: (S4' ++ rest)) = .error [(m_boundary, rem.length)]) ∧
    (∀ fuel t1 S4 S4' rest v rem, S4.length = 4 → S4'.length = 4 →
      read_list2_v fuel (t1 :: (S4 ++ rest)) = .ok (v, rem) → leVal S4' ≠ leVal S4 →
      read_list2_v fuel (t1 :: (S4' ++ rest)) = .error [(m_boundary, rem.length)]) ∧
    (∀ fuel k1 t1 S4 S4' rest v rem, S4.length = 4 → S4'.length = 4 →
      read_map_v fuel (k1 :: t1 :: (S4 ++ rest)) = .ok (v, rem) → leVal S4' ≠ leVal S4 →
      read_map_v fuel (k1 :: t1 :: (S4' ++ rest)) = .error [(m_boundary, rem.length)]) := by
  refine ⟨?_, ?_, ?_, ?_, ?_⟩
  · intro fuel L4 L4' rest v rem h4 h4' h hne
    exact entry_length_flip fuel L4 L4' rest v rem h4 h4' h hne
  · intro fuel S4 S4' rest its rem h4 h4' h hne
    exact embed_length_flip fuel S4 S4' rest its rem h4 h4' h hne
  · intro fuel t1 S4 S4' rest v rem h4 h4' h hne
    exact list_length_flip fuel t1 S4 S4' rest v rem h4 h4' h hne
  · intro fuel t1 S4 S4' rest v rem h4 h4' h hne
    exact list2_length_flip fuel t1 S4 S4' rest v rem h4 h4' h hne
  · intro fuel k1 t1 S4 S4' rest v rem h4 h4' h hne
    exact map_length_flip fuel k1 t1 S4 S4' rest v rem h4 h4' h hne

/-- Closed instance of C9 (amended): the valid 10-byte entry with declared
length 6 decodes; bumping the length field to 7 fails on the entry boundary
assertion. -/
theorem claim_C9_amended_witness :
    read_entry 9 ([7, 0, 0, 0] ++ [1, 0, 0, 0, 0, 0]) =
      .error [(m_entry_boundary, ([] : Bytes).length)] :=
  claim_C9_amended.1 9 [6, 0, 0, 0] [7, 0, 0, 0] [1, 0, 0, 0, 0, 0]
    (1, []) [] (by decide) (by decide) (by rfl) (by decide)

/-- Boundary inversion for the shared Embed/non-null-Pointer body: success
implies the cursor ended exactly at the captured position plus the declared
byte length. -/
theorem read_embed_body_boundary (fuel : Nat) (s : Bytes)
    (its : List (Nat × Value)) (rem : Bytes)
    (h : read_embed_body fuel s = .ok (its, rem)) :
    4 ≤ s.length ∧ (s.drop 4).length = rem.length + leVal (s.take 4) := by
  cases fuel with
  | zero => simp [read_embed_body] at h
  | succ fuel =>
    unfold read_embed_body at h
    cases hS : read_uN 4 s with
    | none => simp [hS] at h
    | some p =>
      obtain ⟨size, s1⟩ := p
      obtain ⟨hw, hv', hs1⟩ := read_uN_ok hS
      simp only [hS, basrt_some] at h
      cases hc : read_uN 2 s1 with
      | none => simp [hc] at h
      | some p2 =>
        obtain ⟨cnt, s2⟩ := p2
        simp only [hc, basrt_some] at h
        cases hf : read_fields fuel cnt s2 with
        | error e => simp [hf] at h
        | ok r =>
          obtain ⟨items, s3⟩ := r
          simp only [hf] at h
          cases hbeq : (s1.length == s3.length + size) with
          | false => simp [hbeq] at h
          | true =>
            simp only [hbeq, bchk_true, Except.ok.injEq, Prod.mk.injEq] at h
            have hrem : s3 = rem := h.2
            have hb : s1.length = s3.length + size := beq_iff_eq.mp hbeq
            subst hs1
            subst hv'
            subst hrem
            exact ⟨hw, hb⟩

/-- C2: for every size-prefixed field — an Entry body, the shared
Embed/non-null-Pointer body (and hence an Embed and a non-null Pointer),
a List, a List2, a Map — the decoder captures the cursor immediately after
the declared byte-length field, and the field's decode succeeds only if the
final cursor equals the captured position plus the declared length (in
suffix coordinates, remaining-at-capture = remaining-at-end + length);
the boundary assertion aborts the decode otherwise. -/
theorem claim_C2_size_boundaries :
    (∀ fuel s v rem, read_entry fuel s = .ok (v, rem) →
      4 ≤ s.length ∧ (s.drop 4).length = rem.length + leVal (s.take 4)) ∧
    (∀ fuel s its rem, read_embed_body fuel s = .ok (its, rem) →
      4 ≤ s.length ∧ (s.drop 4).length = rem.length + leVal (s.take 4)) ∧
    (∀ fuel s v rem, read_embed_v fuel s = .ok (v, rem) →
      4 ≤ s.length ∧ 4 ≤ (s.drop 4).length ∧
        ((s.drop 4).drop 4).length = rem.length + leVal ((s.drop 4).take 4)) ∧
    (∀ fuel s n its rem, read_ptr_v fuel s = .ok (.vptr n its, rem) → n ≠ 0 →
      4 ≤ s.length ∧ 4 ≤ (s.drop 4).length ∧
        ((s.drop 4).drop 4).length = rem.length + leVal ((s.drop 4).take 4)) ∧
    (∀ fuel s v rem, read_list_v fuel s = .ok (v, rem) →
      1 ≤ s.length ∧ 4 ≤ (s.drop 1).length ∧
        ((s.drop 1).drop 4).length = rem.length + leVal ((s.drop 1).take 4)) ∧
    (∀ fuel s v rem, read_list2_v fuel s = .ok (v, rem) →
      1 ≤ s.length ∧ 4 ≤ (s.drop 1).length ∧
        ((s.drop 1).drop 4).length = rem.length + leVal ((s.drop 1).take 4)) ∧
    (∀ fuel s v rem, read_map_v fuel s = .ok (v, rem) →
      2 ≤ s.length ∧ 4 ≤ ((s.drop 1).drop 1).length ∧
        (((s.drop 1).drop 1).drop 4).length =
          rem.length + leVal (((s.drop 1).drop 1).take 4)) := by
  refine ⟨?_, ?_, ?_, ?_, ?_, ?_, ?_⟩
  · -- Entry (lines 164-180)
    intro fuel s v rem h
    unfold read_entry at h
    cases hL : read_uN 4 s with
    | none => simp [hL] at h
    | some p =>
      obtain ⟨L, s1⟩ := p
      obtain ⟨hw, hv', hs1⟩ := read_uN_ok hL
      simp only [hL, basrt_some] at h
      cases hk : read_uN 4 s1 with
      | none => simp [hk] at h
      | some p2 =>
        obtain ⟨kh, s2⟩ := p2
        simp only [hk, basrt_some] at h
        cases hc : read_uN 2 s2 with
        | none => simp [hc] at h
        | some p3 =>
          obtain ⟨cnt, s3⟩ := p3
          simp only [hc, basrt_some] at h
          cases hf : read_fields fuel cnt s3 with
          | error e => simp [hf] at h
          | ok r =>
            obtain ⟨items, s4⟩ := r
            simp only [hf] at h
            cases hbeq : (s1.length == s4.length + L) with
            | false => simp [hbeq] at h
            | true =>
              simp only [hbeq, bchk_true, Except.ok.injEq, Prod.mk.injEq] at h
              have hrem : s4 = rem := h.2
              have hb : s1.length = s4.length + L := beq_iff_eq.mp hbeq
              subst hs1
              subst hv'
              subst hrem
              exact ⟨hw, hb⟩
  · -- Embed/non-null-Pointer body
    intro fuel s its rem h
    exact read_embed_body_boundary fuel s its rem h
  · -- Embed (lines 194-210): class-name hash, then the body
    intro fuel s v rem h
    cases fuel with
    | zero => simp [read_embed_v] at h
    | succ fuel =>
      unfold read_embed_v at h
      cases hn : read_uN 4 s with
      | none => simp [hn] at h
      | some p =>
        obtain ⟨name, s1⟩ := p
        obtain ⟨hw, hv', hs1⟩ := read_uN_ok hn
        simp only [hn, basrt_some] at h
        cases hb : read_embed_body fuel s1 with
        | error e => simp [hb] at h
        | ok r =>
          obtain ⟨items, s2⟩ := r
          simp only [hb, Except.ok.injEq, Prod.mk.injEq] at h
          obtain ⟨hw2, heq⟩ := read_embed_body_boundary fuel s1 items s2 hb
          rw [h.2] at heq
          subst hs1
          exact ⟨hw, hw2, heq⟩
  · -- Pointer, non-null arm (lines 212-231)
    intro fuel s n its rem h hn0
    cases fuel with
    | zero => simp [read_ptr_v] at h
    | succ fuel =>
      unfold read_ptr_v at h
      cases hn : read_uN 4 s with
      | none => simp [hn] at h
      | some p =>
        obtain ⟨name, s1⟩ := p
        obtain ⟨hw, hv', hs1⟩ := read_uN_ok hn
        simp only [hn, basrt_some] at h
        by_cases hz : name = 0
        · rw [if_pos hz] at h
          simp only [Except.ok.injEq, Prod.mk.injEq, Value.vptr.injEq] at h
          exact absurd h.1.1.symm hn0
        · rw [if_neg hz] at h
          cases hb : read_embed_body fuel s1 with
          | error e => simp [hb] at h
          | ok r =>
            obtain ⟨items, s2⟩ := r
            simp only [hb, Except.ok.injEq, Prod.mk.injEq] at h
            obtain ⟨hw2, heq⟩ := read_embed_body_boundary fuel s1 items s2 hb
            rw [h.2] at heq
            subst hs1
            exact ⟨hw, hw2, heq⟩
  · -- List (lines 245-259)
    intro fuel s v rem h
    cases fuel with
    | zero => simp [read_list_v] at h
    | succ fuel =>
      unfold read_list_v at h
      cases ht : read_typ s with
      | none => simp [ht] at h
      | some p =>
        obtain ⟨vty, s1⟩ := p
        obtain ⟨hw1, htv, hvt, hs1⟩ := read_typ_ok ht
        simp only [ht, basrt_some] at h
        cases hic : is_container vty with
        | true => simp [hic] at h
        | false =>
          simp only [hic, Bool.not_false, bchk_true] at h
          cases hS : read_uN 4 s1 with
          | none => simp [hS] at h
          | some p2 =>
            obtain ⟨size, s2⟩ := p2
            obtain ⟨hw2, hv2, hs2⟩ := read_uN_ok hS
            simp only [hS, basrt_some] at h
            cases hc : read_uN 4 s2 with
            | none => simp [hc] at h
            | some p3 =>
              obtain ⟨cnt, s3⟩ := p3
              simp only [hc, basrt_some] at h
              cases hli : read_list_items fuel vty cnt s3 with
              | error e => simp [hli] at h
              | ok r =>
                obtain ⟨items, s4⟩ := r
                simp only [hli] at h
                cases hbeq : (s2.length == s4.length + size) with
                | false => simp [hbeq] at h
                | true =>
                  simp only [hbeq, bchk_true, Except.ok.injEq, Prod.mk.injEq] at h
                  have hrem : s4 = rem := h.2
                  have hb : s2.length = s4.length + size := beq_iff_eq.mp hbeq
                  subst hs1
                  subst hv2
                  subst hs2
                  subst hrem
                  exact ⟨hw1, hw2, hb⟩
  · -- List2 (lines 261-275)
    intro fuel s v rem h
    cases fuel with
    | zero => simp [read_list2_v] at h
    | succ fuel =>
      unfold read_list2_v at h
      cases ht : read_typ s with
      | none => simp [ht] at h
      | some p =>
        obtain ⟨vty, s1⟩ := p
        obtain ⟨hw1, htv, hvt, hs1⟩ := read_typ_ok ht
        simp only [ht, basrt_some] at h
        cases hic : is_container vty with
        | true => simp [hic] at h
        | false =>
          simp only [hic, Bool.not_false, bchk_true] at h
          cases hS : read_uN 4 s1 with
          | none => simp [hS] at h
          | some p2 =>
            obtain ⟨size, s2⟩ := p2
            obtain ⟨hw2, hv2, hs2⟩ := read_uN_ok hS
            simp only [hS, basrt_some] at h
            cases hc : read_uN 4 s2 with
            | none => simp [hc] at h
            | some p3 =>
              obtain ⟨cnt, s3⟩ := p3
              simp only [hc, basrt_some] at h
              cases hli : read_list_items fuel vty cnt s3 with
              | error e => simp [hli] at h
              | ok r =>
                obtain ⟨items, s4⟩ := r
                simp only [hli] at h
                cases hbeq : (s2.length == s4.length + size) with
                | false => simp [hbeq] at h
                | true =>
                  simp only [hbeq, bchk_true, Except.ok.injEq, Prod.mk.injEq] at h
                  have hrem : s4 = rem := h.2
                  have hb : s2.length = s4.length + size := beq_iff_eq.mp hbeq
                  subst hs1
                  subst hv2
                  subst hs2
                  subst hrem
                  exact ⟨hw1, hw2, hb⟩
  · -- Map (lines 277-294)
    intro fuel s v rem h
    cases fuel with
    | zero => simp [read_map_v] at h
    | succ fuel =>
      unfold read_map_v at h
      cases htk : read_typ s with
      | none => simp [htk] at h
      | some p =>
        obtain ⟨kty, s1⟩ := p
        obtain ⟨hw1, htv1, hvt1, hs1⟩ := read_typ_ok htk
        simp only [htk, basrt_some] at h
        cases hip : is_primitive kty with
        | false => simp [hip] at h
        | true =>
          simp only [hip, bchk_true] at h
          cases htv : read_typ s1 with
          | none => simp [htv] at h
          | some p2 =>
            obtain ⟨vty, s2⟩ := p2
            obtain ⟨hw2, htv2, hvt2, hs2⟩ := read_typ_ok htv
            simp only [htv, basrt_some] at h
            cases hic : is_container vty with
            | true => simp [hic] at h
            | false =>
              simp only [hic, Bool.not_false, bchk_true] at h
              cases hS : read_uN 4 s2 with
              | none => simp [hS] at h
              | some p3 =>
                obtain ⟨size, s3⟩ := p3
                obtain ⟨hw3, hv3, hs3⟩ := read_uN_ok hS
                simp only [hS, basrt_some] at h
                cases hc : read_uN 4 s3 with
                | none => simp [hc] at h
                | some p4 =>
                  obtain ⟨cnt, s4⟩ := p4
                  simp only [hc, basrt_some] at h
                  cases hmi : read_map_items fuel kty vty cnt s4 with
                  | error e => simp [hmi] at h
                  | ok r =>
                    obtain ⟨items, s5⟩ := r
                    simp only [hmi] at h
                    cases hbeq : (s3.length == s5.length + size) with
                    | false => simp [hbeq] at h
                    | true =>
                      simp only [hbeq, bchk_true, Except.ok.injEq,
                        Prod.mk.injEq] at h
                      have hrem : s5 = rem := h.2
                      have hb : s3.length = s5.length + size := beq_iff_eq.mp hbeq
                      subst hs1
                      subst hs2
                      subst hv3
                      subst hs3
                      subst hrem
                      have hlen1 : (List.drop 1 s).length = s.length - 1 :=
                        List.length_drop 1 s
                      exact ⟨by omega, hw3, hb⟩

/-- Closed instances of C2 on concrete well-formed fields of each kind. -/
theorem claim_C2_size_boundaries_witness :
    (4 ≤ ([6, 0, 0, 0, 1, 0, 0, 0, 0, 0] : Bytes).length ∧
      (([6, 0, 0, 0, 1, 0, 0, 0, 0, 0] : Bytes).drop 4).length =
        ([] : Bytes).length + leVal (([6, 0, 0, 0, 1, 0, 0, 0, 0, 0] : Bytes).take 4)) ∧
    (1 ≤ ([1, 5, 0, 0, 0, 1, 0, 0, 0, 1] : Bytes).length ∧
      4 ≤ (([1, 5, 0, 0, 0, 1, 0, 0, 0, 1] : Bytes).drop 1).length ∧
      ((([1, 5, 0, 0, 0, 1, 0, 0, 0, 1] : Bytes).drop 1).drop 4).length =
        ([] : Bytes).length +
          leVal ((([1, 5, 0, 0, 0, 1, 0, 0, 0, 1] : Bytes).drop 1).take 4)) ∧
    (2 ≤ ([1, 1, 6, 0, 0, 0, 1, 0, 0, 0, 1, 0] : Bytes).length ∧
      4 ≤ ((([1, 1, 6, 0, 0, 0, 1, 0, 0, 0, 1, 0] : Bytes).drop 1).drop 1).length ∧
      (((([1, 1, 6, 0, 0, 0, 1, 0, 0, 0, 1, 0] : Bytes).drop 1).drop 1).drop 4).length =
        ([] : Bytes).length +
          leVal (((([1, 1, 6, 0, 0, 0, 1, 0, 0, 0, 1, 0] : Bytes).drop 1).drop 1).take 4)) :=
  ⟨claim_C2_size_boundaries.1 9 [6, 0, 0, 0, 1, 0, 0, 0, 0, 0] (1, []) [] rfl,
   claim_C2_size_boundaries.2.2.2.2.1 9 [1, 5, 0, 0, 0, 1, 0, 0, 0, 1]
     (.vlist 1 [.vscalar 1 1]) [] rfl,
   claim_C2_size_boundaries.2.2.2.2.2.2 9 [1, 1, 6, 0, 0, 0, 1, 0, 0, 0, 1, 0]
     (.vmap 1 1 [(.vscalar 1 1, .vscalar 1 0)]) [] rfl⟩


/-- C7: decoding a Pointer first reads the 32-bit class-name hash; a zero
hash succeeds immediately as the null sentinel with no fields, consuming
only the 4 hash bytes; a nonzero hash proceeds exactly as an Embed — the
same size-prefixed body with identical reads, checks and failure records —
differing only in the result constructor (`vptr` for `vembed`). -/
theorem claim_C7_pointer :
    (∀ fuel s, 4 ≤ s.length → leVal (s.take 4) = 0 →
      read_ptr_v (fuel + 1) s = .ok (.vptr 0 [], s.drop 4)) ∧
    (∀ fuel s, 4 ≤ s.length → leVal (s.take 4) ≠ 0 →
      read_ptr_v (fuel + 1) s = embed_to_ptr (read_embed_v (fuel + 1) s)) := by
  constructor
  · intro fuel s h4 hz
    have hr : read_uN 4 s = some (leVal (s.take 4), s.drop 4) := by
      unfold read_uN
      rw [if_pos h4]
    unfold read_ptr_v
    simp only [hr, basrt_some]
    rw [if_pos hz]
  · intro fuel s h4 hnz
    have hr : read_uN 4 s = some (leVal (s.take 4), s.drop 4) := by
      unfold read_uN
      rw [if_pos h4]
    unfold read_ptr_v read_embed_v
    simp only [hr, basrt_some]
    rw [if_neg hnz]
    cases hb : read_embed_body fuel (s.drop 4) with
    | error e => simp [embed_to_ptr]
    | ok r =>
      obtain ⟨items, s2⟩ := r
      simp [embed_to_ptr]

/-- Closed instances of C7: a null Pointer consumes exactly its 4 hash
bytes; a non-null Pointer agrees with the Embed decode of the same bytes
up to the result constructor. -/
theorem claim_C7_pointer_witness :
    read_ptr_v 9 [0, 0, 0, 0] = .ok (.vptr 0 [], []) ∧
    read_ptr_v 9 [1, 0, 0, 0, 2, 0, 0, 0, 0, 0] =
      embed_to_ptr (read_embed_v 9 [1, 0, 0, 0, 2, 0, 0, 0, 0, 0]) :=
  ⟨claim_C7_pointer.1 8 [0, 0, 0, 0] (by decide) (by decide),
   claim_C7_pointer.2 8 [1, 0, 0, 0, 2, 0, 0, 0, 0, 0] (by decide) (by decide)⟩

/-- A little-endian block of bytes below 256 is bounded by `256 ^ width`. -/
theorem leVal_lt (bs : Bytes) (h : ∀ b ∈ bs, b < 256) :
    leVal bs < 256 ^ bs.length := by
  induction bs with
  | nil => simp [leVal]
  | cons b t ih =>
    have hb : b < 256 := h b (by simp)
    have ht : leVal t < 256 ^ t.length := ih (fun x hx => h x (by simp [hx]))
    simp only [leVal, List.length_cons, pow_succ]
    omega

/-- Every value produced by the linked-files loop is a string. -/
theorem read_linked_items_strings (n : Nat) (s : Bytes) (items : List Value)
    (r : Bytes) (h : read_linked_items n s = .ok (items, r)) :
    ∀ v ∈ items, ∃ str, v = Value.vstring str := by
  induction n generalizing s items r with
  | zero =>
    unfold read_linked_items at h
    simp only [Except.ok.injEq, Prod.mk.injEq] at h
    rw [← h.1]
    simp
  | succ n ih =>
    unfold read_linked_items at h
    cases hs : read_str s with
    | none => simp [hs] at h
    | some p =>
      obtain ⟨v, s1⟩ := p
      simp only [hs, basrt_some] at h
      cases hrest : read_linked_items n s1 with
      | error e => simp [hrest] at h
      | ok q =>
        obtain ⟨rest, s2⟩ := q
        simp only [hrest, Except.ok.injEq, Prod.mk.injEq] at h
        intro x hx
        rw [← h.1] at hx
        rcases List.mem_cons.mp hx with hx | hx
        · exact ⟨v, hx⟩
        · exact ih s1 rest s2 hrest x hx

/-- Every pair produced by the entry loop is (hash key, Embed). -/
theorem read_entry_list_shape (fuel : Nat) (hashes : List Nat) (s : Bytes)
    (pairs : List (Value × Value)) (r : Bytes)
    (h : read_entry_list fuel hashes s = .ok (pairs, r)) :
    ∀ p ∈ pairs, ∃ kh nh fields,
      p = (Value.vscalar 17 kh, Value.vembed nh fields) := by
  induction hashes generalizing s pairs r with
  | nil =>
    unfold read_entry_list at h
    simp only [Except.ok.injEq, Prod.mk.injEq] at h
    rw [← h.1]
    simp
  | cons nh rest ih =>
    unfold read_entry_list at h
    cases he : read_entry fuel s with
    | error e => simp [he] at h
    | ok q =>
      obtain ⟨⟨kh, fields⟩, s1⟩ := q
      simp only [he, bwrap_ok] at h
      cases hrest : read_entry_list fuel rest s1 with
      | error e => simp [hrest] at h
      | ok q2 =>
        obtain ⟨pairs2, s2⟩ := q2
        simp only [hrest, Except.ok.injEq, Prod.mk.injEq] at h
        intro p hp
        rw [← h.1] at hp
        rcases List.mem_cons.mp hp with hp | hp
        · exact ⟨kh, nh, fields, hp⟩
        · exact ih s1 pairs2 s2 hrest p hp

/-- Success inversion of `read_linked`: the value is always a
`List{ Type::STRING }`, with string items, empty when no links are read. -/
theorem read_linked_st_ok (hl : Bool) (s : Bytes) (val : Value) (r : Bytes)
    (h : read_linked_st hl s = .ok (val, r)) :
    ∃ items, val = Value.vlist 16 items ∧
      (∀ v ∈ items, ∃ str, v = Value.vstring str) ∧
      (hl = false → items = []) := by
  cases hl with
  | false =>
    unfold read_linked_st at h
    simp only [Bool.false_eq_true, if_false, Except.ok.injEq,
      Prod.mk.injEq] at h
    exact ⟨[], h.1.symm, by simp, fun _ => rfl⟩
  | true =>
    unfold read_linked_st at h
    simp only [if_true] at h
    cases hc : read_uN 4 s with
    | none => simp [hc] at h
    | some p =>
      obtain ⟨n, s1⟩ := p
      simp only [hc, basrt_some] at h
      cases hi : read_linked_items n s1 with
      | error e => simp [hi] at h
      | ok q =>
        obtain ⟨items, s2⟩ := q
        simp only [hi, Except.ok.injEq, Prod.mk.injEq] at h
        exact ⟨items, h.1.symm,
          read_linked_items_strings n s1 items s2 hi, by simp⟩

/-- Success inversion of `read_entries`: the value is always a
`Map{ Type::HASH, Type::EMBED }` of (hash key, Embed) pairs. -/
theorem read_entries_st_ok (fuel : Nat) (s : Bytes) (val : Value) (r : Bytes)
    (h : read_entries_st fuel s = .ok (val, r)) :
    ∃ pairs, val = Value.vmap 17 131 pairs ∧
      ∀ p ∈ pairs, ∃ kh nh fields,
        p = (Value.vscalar 17 kh, Value.vembed nh fields) := by
  unfold read_entries_st at h
  cases hc : read_uN 4 s with
  | none => simp [hc] at h
  | some p =>
    obtain ⟨cnt, s1⟩ := p
    simp only [hc, basrt_some] at h
    cases hh : read_hashes cnt s1 with
    | none => simp [hh] at h
    | some q =>
      obtain ⟨hashes, s2⟩ := q
      simp only [hh, basrt_some] at h
      cases he : read_entry_list fuel hashes s2 with
      | error e => simp [he] at h
      | ok q2 =>
        obtain ⟨pairs, s3⟩ := q2
        simp only [he, Except.ok.injEq, Prod.mk.injEq] at h
        exact ⟨pairs, h.1.symm,
          read_entry_list_shape fuel hashes s2 pairs s3 he⟩

/-- Success inversion of the post-magic steps: the section table is extended
by exactly `version`, `linked`, `entries`, with the documented shapes. -/
theorem read_sections_rest_ok (fuel : Nat) (secs0 : Sections)
    (magic s : Bytes) (secs : Sections) (r : Bytes)
    (hbytes : ∀ b ∈ s, b < 256)
    (h : read_sections_rest fuel secs0 magic s = (secs, .ok r)) :
    ∃ ver lnk ent,
      secs = secs0 ++ [("version", Value.vscalar 7 ver),
        ("linked", Value.vlist 16 lnk), ("entries", Value.vmap 17 131 ent)] ∧
      ver < 2 ^ 32 ∧
      (∀ v ∈ lnk, ∃ str, v = Value.vstring str) ∧
      (ver < 2 → lnk = []) ∧
      (∀ p ∈ ent, ∃ kh nh fields,
        p = (Value.vscalar 17 kh, Value.vembed nh fields)) := by
  unfold read_sections_rest at h
  cases hm : (magic == PROPb) with
  | false => simp [hm] at h
  | true =>
    simp only [hm, bchk_true] at h
    cases hv : read_uN 4 s with
    | none => simp [hv] at h
    | some p =>
      obtain ⟨ver, s1⟩ := p
      obtain ⟨hw, hval, hs1⟩ := read_uN_ok hv
      simp only [hv, basrt_some] at h
      cases hl : read_linked_st (decide (2 ≤ ver)) s1 with
      | error e => simp [hl] at h
      | ok q =>
        obtain ⟨linkedVal, s2⟩ := q
        simp only [hl, bwrap_ok] at h
        cases he : read_entries_st fuel s2 with
        | error e => simp [he] at h
        | ok q2 =>
          obtain ⟨entriesVal, s3⟩ := q2
          simp only [he, bwrap_ok, Prod.mk.injEq] at h
          obtain ⟨items, hlv, hstr, hemp⟩ :=
            read_linked_st_ok (decide (2 ≤ ver)) s1 linkedVal s2 hl
          obtain ⟨pairs, hev, hshape⟩ :=
            read_entries_st_ok fuel s2 entriesVal s3 he
          refine ⟨ver, items, pairs, ?_, ?_, hstr, ?_, hshape⟩
          · rw [← h.1, hlv, hev]
            simp
          · have hb : ver < 256 ^ (s.take 4).length := by
              rw [hval]
              exact leVal_lt (s.take 4)
                (fun b hb => hbytes b (List.mem_of_mem_take hb))
            have hlen : (s.take 4).length = 4 := by
              rw [List.length_take]
              omega
            rw [hlen] at hb
            calc ver < 256 ^ 4 := hb
              _ = 2 ^ 32 := by norm_num
          · intro hv2
            apply hemp
            rw [decide_eq_false_iff_not]
            omega


/-- Success inversion of `read_sections`: the end-of-buffer check passed and
the core produced the table. -/
theorem read_sections_st_ok_inv (fuel : Nat) (s : Bytes) (secs : Sections)
    (r : Bytes) (h : read_sections_st fuel s = (secs, .ok r)) :
    read_sections_core fuel s = (secs, .ok r) ∧ r = [] := by
  unfold read_sections_st at h
  cases hcore : read_sections_core fuel s with
  | mk secs2 res2 =>
    rw [hcore] at h
    cases res2 with
    | error e => simp at h
    | ok s4 =>
      cases hemp : s4.isEmpty with
      | false => simp [hemp] at h
      | true =>
        simp only [hemp, bchk_true] at h
        simp only [Prod.mk.injEq, Except.ok.injEq] at h
        obtain ⟨h1, h2⟩ := h
        subst h1
        subst h2
        exact ⟨rfl, List.isEmpty_iff.mp hemp⟩

/-- Success inversion of the full section decode: the table holds exactly
the four sections with their documented shapes. -/
theorem read_sections_core_ok (fuel : Nat) (s : Bytes) (secs : Sections)
    (r : Bytes) (hbytes : ∀ b ∈ s, b < 256)
    (h : read_sections_core fuel s = (secs, .ok r)) :
    ∃ t ver lnk ent,
      secs = [("type", Value.vstring t), ("version", Value.vscalar 7 ver),
        ("linked", Value.vlist 16 lnk), ("entries", Value.vmap 17 131 ent)] ∧
      (t = PROPb ∨ t = PTCHb) ∧
      ver < 2 ^ 32 ∧
      (∀ v ∈ lnk, ∃ str, v = Value.vstring str) ∧
      (ver < 2 → lnk = []) ∧
      (∀ p ∈ ent, ∃ kh nh fields,
        p = (Value.vscalar 17 kh, Value.vembed nh fields)) := by
  unfold read_sections_core at h
  cases harr : read_arr 4 s with
  | none => simp [harr] at h
  | some p =>
    obtain ⟨magic0, s0⟩ := p
    obtain ⟨hw, hm0, hs0⟩ := read_arr_ok harr
    simp only [harr, basrt_some] at h
    cases hptch : (magic0 == PTCHb) with
    | true =>
      simp only [hptch, eq_self_iff_true, if_true] at h
      cases hunk : read_uN 8 s0 with
      | none => simp [hunk] at h
      | some q =>
        obtain ⟨unk, s1⟩ := q
        obtain ⟨hw1, hv1, hs1⟩ := read_uN_ok hunk
        simp only [hunk, basrt_some] at h
        cases harr2 : read_arr 4 s1 with
        | none => simp [harr2] at h
        | some q2 =>
          obtain ⟨magic1, s2⟩ := q2
          obtain ⟨hw2, hm1, hs2⟩ := read_arr_ok harr2
          simp only [harr2, basrt_some] at h
          have hb2 : ∀ b ∈ s2, b < 256 := by
            intro b hb
            apply hbytes
            rw [hs2, hs1, hs0] at hb
            exact List.mem_of_mem_drop (List.mem_of_mem_drop
              (List.mem_of_mem_drop hb))
          obtain ⟨ver, lnk, ent, hsecs, hver, hstr, hv2, hshape⟩ :=
            read_sections_rest_ok fuel [("type", Value.vstring PTCHb)]
              magic1 s2 secs r hb2 h
          refine ⟨PTCHb, ver, lnk, ent, ?_, Or.inr rfl, hver, hstr, hv2, hshape⟩
          rw [hsecs]
          simp
    | false =>
      simp only [hptch, Bool.false_eq_true, if_false] at h
      have hb0 : ∀ b ∈ s0, b < 256 := by
        intro b hb
        apply hbytes
        rw [hs0] at hb
        exact List.mem_of_mem_drop hb
      obtain ⟨ver, lnk, ent, hsecs, hver, hstr, hv2, hshape⟩ :=
        read_sections_rest_ok fuel [("type", Value.vstring PROPb)]
          magic0 s0 secs r hb0 h
      refine ⟨PROPb, ver, lnk, ent, ?_, Or.inl rfl, hver, hstr, hv2, hshape⟩
      rw [hsecs]
      simp

/-- C1: a successful decode always yields exactly the four sections, in
emplace order: `type` (a String equal to "PROP" or "PTCH"), `version` (the
u32 read from the header, tagged U32), `linked` (a `List{ Type::STRING }`
of strings, present even when empty and left empty when version < 2), and
`entries` (a `Map{ Type::HASH, Type::EMBED }` of (32-bit hash, Embed)
pairs). -/
theorem claim_C1_document_sections (prior : Sections) (s : Bytes)
    (secs : Sections) (hbytes : ∀ b ∈ s, b < 256)
    (h : process_st prior s = (secs, .ok ())) :
    ∃ t ver lnk ent,
      secs = [("type", Value.vstring t), ("version", Value.vscalar 7 ver),
        ("linked", Value.vlist 16 lnk), ("entries", Value.vmap 17 131 ent)] ∧
      (t = PROPb ∨ t = PTCHb) ∧
      ver < 2 ^ 32 ∧
      (∀ v ∈ lnk, ∃ str, v = Value.vstring str) ∧
      (ver < 2 → lnk = []) ∧
      (∀ p ∈ ent, ∃ kh nh fields,
        p = (Value.vscalar 17 kh, Value.vembed nh fields)) := by
  unfold process_st at h
  cases hst : read_sections_st (init_fuel s) s with
  | mk secs1 res =>
    rw [hst] at h
    cases res with
    | error e => simp at h
    | ok s3 =>
      simp only [Prod.mk.injEq] at h
      have hsecs1 : secs1 = secs := h.1
      subst hsecs1
      obtain ⟨hcore, hr⟩ :=
        read_sections_st_ok_inv (init_fuel s) s secs1 s3 hst
      exact read_sections_core_ok (init_fuel s) s secs1 s3 hbytes hcore

/-- Closed instance of C1 on the minimal valid buffer
"PROP" + version 0 + entry count 0. -/
theorem claim_C1_document_sections_witness :
    (process_st [] [80, 82, 79, 80, 0, 0, 0, 0, 0, 0, 0, 0]).2 = .ok () ∧
    ((process_st [] [80, 82, 79, 80, 0, 0, 0, 0, 0, 0, 0, 0]).1).map Prod.fst =
      ["type", "version", "linked", "entries"] := by
  obtain ⟨t, ver, lnk, ent, hsecs, hty, hver, hstr, hv2, hshape⟩ :=
    claim_C1_document_sections []
      [80, 82, 79, 80, 0, 0, 0, 0, 0, 0, 0, 0]
      [("type", Value.vstring PROPb), ("version", Value.vscalar 7 0),
        ("linked", Value.vlist 16 []), ("entries", Value.vmap 17 131 [])]
      (by decide) rfl
  refine ⟨rfl, ?_⟩
  have heq : (process_st [] [80, 82, 79, 80, 0, 0, 0, 0, 0, 0, 0, 0]).1 =
      [("type", Value.vstring PROPb), ("version", Value.vscalar 7 0),
        ("linked", Value.vlist 16 []), ("entries", Value.vmap 17 131 [])] := rfl
  rw [heq, hsecs]
  simp


/-- Master invariant of the recursive value decoder: if the node-local
predicate `p` accepts every node shape the decoder can construct (strings,
scalars, containers whose recorded types passed their checks, pointers and
embeds), then every value produced by a successful decode satisfies `p` on
all its nodes.  Proved by induction on the fuel that bounds the mutual
recursion. -/
theorem decode_vAll (p : Value → Bool)
    (hstr : ∀ s, p (.vstring s) = true)
    (hscal : ∀ t v, p (.vscalar t v) = true)
    (hlist : ∀ e its, is_container e = false → p (.vlist e its) = true)
    (hlist2 : ∀ e its, is_container e = false → p (.vlist2 e its) = true)
    (hopt : ∀ e its, is_container e = false → p (.vopt e its) = true)
    (hmap : ∀ k t its, is_primitive k = true → is_container t = false →
      p (.vmap k t its) = true)
    (hptr : ∀ n its, p (.vptr n its) = true)
    (hembed : ∀ n its, p (.vembed n its) = true) :
    ∀ fuel,
      (∀ ty s v r, read_value_of fuel ty s = .ok (v, r) → vAll p v = true) ∧
      (∀ cnt s items r, read_fields fuel cnt s = .ok (items, r) →
        vAllN p items = true) ∧
      (∀ ty cnt s items r, read_list_items fuel ty cnt s = .ok (items, r) →
        vAllL p items = true) ∧
      (∀ kty vty cnt s items r,
        read_map_items fuel kty vty cnt s = .ok (items, r) →
        vAllP p items = true) ∧
      (∀ s items r, read_embed_body fuel s = .ok (items, r) →
        vAllN p items = true) ∧
      (∀ s v r, read_embed_v fuel s = .ok (v, r) → vAll p v = true) ∧
      (∀ s v r, read_ptr_v fuel s = .ok (v, r) → vAll p v = true) ∧
      (∀ s v r, read_opt_v fuel s = .ok (v, r) → vAll p v = true) ∧
      (∀ s v r, read_list_v fuel s = .ok (v, r) → vAll p v = true) ∧
      (∀ s v r, read_list2_v fuel s = .ok (v, r) → vAll p v = true) ∧
      (∀ s v r, read_map_v fuel s = .ok (v, r) → vAll p v = true) := by
  intro fuel
  induction fuel with
  | zero =>
    exact ⟨fun ty s v r h => by simp [read_value_of] at h,
      fun cnt s items r h => by simp [read_fields] at h,
      fun ty cnt s items r h => by simp [read_list_items] at h,
      fun kty vty cnt s items r h => by simp [read_map_items] at h,
      fun s items r h => by simp [read_embed_body] at h,
      fun s v r h => by simp [read_embed_v] at h,
      fun s v r h => by simp [read_ptr_v] at h,
      fun s v r h => by simp [read_opt_v] at h,
      fun s v r h => by simp [read_list_v] at h,
      fun s v r h => by simp [read_list2_v] at h,
      fun s v r h => by simp [read_map_v] at h⟩
  | succ fuel ih =>
    obtain ⟨ihv, ihf, ihli, ihmi, ihb, ihe, ihp, iho, ihl, ihl2, ihm⟩ := ih
    refine ⟨?_, ?_, ?_, ?_, ?_, ?_, ?_, ?_, ?_, ?_, ?_⟩
    · -- read_value_of
      intro ty s v r h
      unfold read_value_of at h
      split at h
      · -- string
        cases hs : read_str s with
        | none => simp [hs] at h
        | some q =>
          obtain ⟨str, s1⟩ := q
          simp only [hs, Except.ok.injEq, Prod.mk.injEq] at h
          rw [← h.1]
          simp [vAll, hstr]
      · split at h
        · exact ihl s v r h
        · split at h
          · exact ihl2 s v r h
          · split at h
            · exact ihp s v r h
            · split at h
              · exact ihe s v r h
              · split at h
                · exact iho s v r h
                · split at h
                  · exact ihm s v r h
                  · split at h
                    · simp at h
                    · cases hs : read_uN (scalar_width ty) s with
                      | none => simp [hs] at h
                      | some q =>
                        obtain ⟨val, s1⟩ := q
                        simp only [hs, Except.ok.injEq, Prod.mk.injEq] at h
                        rw [← h.1]
                        simp [vAll, hscal]
    · -- read_fields
      intro cnt s items r h
      unfold read_fields at h
      cases cnt with
      | zero =>
        simp only [Except.ok.injEq, Prod.mk.injEq] at h
        rw [← h.1]
        simp [vAllN]
      | succ cnt =>
        cases hn : read_uN 4 s with
        | none => simp [hn] at h
        | some q =>
          obtain ⟨name, s1⟩ := q
          simp only [hn, basrt_some] at h
          cases ht : read_typ s1 with
          | none => simp [ht] at h
          | some q2 =>
            obtain ⟨ty, s2⟩ := q2
            simp only [ht, basrt_some] at h
            cases hv : read_value_of fuel ty s2 with
            | error e => simp [hv] at h
            | ok q3 =>
              obtain ⟨v1, s3⟩ := q3
              simp only [hv, bwrap_ok] at h
              cases hrest : read_fields fuel cnt s3 with
              | error e => simp [hrest] at h
              | ok q4 =>
                obtain ⟨rest, s4⟩ := q4
                simp only [hrest, Except.ok.injEq, Prod.mk.injEq] at h
                rw [← h.1]
                simp [vAllN, ihv ty s2 v1 s3 hv, ihf cnt s3 rest s4 hrest]
    · -- read_list_items
      intro ty cnt s items r h
      unfold read_list_items at h
      cases cnt with
      | zero =>
        simp only [Except.ok.injEq, Prod.mk.injEq] at h
        rw [← h.1]
        simp [vAllL]
      | succ cnt =>
        cases hv : read_value_of fuel ty s with
        | error e => simp [hv] at h
        | ok q =>
          obtain ⟨v1, s1⟩ := q
          simp only [hv, bwrap_ok] at h
          cases hrest : read_list_items fuel ty cnt s1 with
          | error e => simp [hrest] at h
          | ok q2 =>
            obtain ⟨rest, s2⟩ := q2
            simp only [hrest, Except.ok.injEq, Prod.mk.injEq] at h
            rw [← h.1]
            simp [vAllL, ihv ty s v1 s1 hv, ihli ty cnt s1 rest s2 hrest]
    · -- read_map_items
      intro kty vty cnt s items r h
      unfold read_map_items at h
      cases cnt with
      | zero =>
        simp only [Except.ok.injEq, Prod.mk.injEq] at h
        rw [← h.1]
        simp [vAllP]
      | succ cnt =>
        cases hk : read_value_of fuel kty s with
        | error e => simp [hk] at h
        | ok q =>
          obtain ⟨k1, s1⟩ := q
          simp only [hk, bwrap_ok] at h
          cases hv : read_value_of fuel vty s1 with
          | error e => simp [hv] at h
          | ok q2 =>
            obtain ⟨v1, s2⟩ := q2
            simp only [hv, bwrap_ok] at h
            cases hrest : read_map_items fuel kty vty cnt s2 with
            | error e => simp [hrest] at h
            | ok q3 =>
              obtain ⟨rest, s3⟩ := q3
              simp only [hrest, Except.ok.injEq, Prod.mk.injEq] at h
              rw [← h.1]
              simp [vAllP, ihv kty s k1 s1 hk, ihv vty s1 v1 s2 hv,
                ihmi kty vty cnt s2 rest s3 hrest]
    · -- read_embed_body
      intro s items r h
      unfold read_embed_body at h
      cases hS : read_uN 4 s with
      | none => simp [hS] at h
      | some q =>
        obtain ⟨size, s1⟩ := q
        simp only [hS, basrt_some] at h
        cases hc : read_uN 2 s1 with
        | none => simp [hc] at h
        | some q2 =>
          obtain ⟨cnt, s2⟩ := q2
          simp only [hc, basrt_some] at h
          cases hf : read_fields fuel cnt s2 with
          | error e => simp [hf] at h
          | ok q3 =>
            obtain ⟨its, s3⟩ := q3
            simp only [hf] at h
            cases hbeq : (s1.length == s3.length + size) with
            | false => simp [hbeq] at h
            | true =>
              simp only [hbeq, bchk_true, Except.ok.injEq, Prod.mk.injEq] at h
              rw [← h.1]
              exact ihf cnt s2 its s3 hf
    · -- read_embed_v
      intro s v r h
      unfold read_embed_v at h
      cases hn : read_uN 4 s with
      | none => simp [hn] at h
      | some q =>
        obtain ⟨name, s1⟩ := q
        simp only [hn, basrt_some] at h
        cases hb : read_embed_body fuel s1 with
        | error e => simp [hb] at h
        | ok q2 =>
          obtain ⟨items, s2⟩ := q2
          simp only [hb, Except.ok.injEq, Prod.mk.injEq] at h
          rw [← h.1]
          simp [vAll, hembed, ihb s1 items s2 hb]
    · -- read_ptr_v
      intro s v r h
      unfold read_ptr_v at h
      cases hn : read_uN 4 s with
      | none => simp [hn] at h
      | some q =>
        obtain ⟨name, s1⟩ := q
        simp only [hn, basrt_some] at h
        by_cases hz : name = 0
        · rw [if_pos hz] at h
          simp only [Except.ok.injEq, Prod.mk.injEq] at h
          rw [← h.1]
          simp [vAll, vAllN, hptr]
        · rw [if_neg hz] at h
          cases hb : read_embed_body fuel s1 with
          | error e => simp [hb] at h
          | ok q2 =>
            obtain ⟨items, s2⟩ := q2
            simp only [hb, Except.ok.injEq, Prod.mk.injEq] at h
            rw [← h.1]
            simp [vAll, hptr, ihb s1 items s2 hb]
    · -- read_opt_v
      intro s v r h
      unfold read_opt_v at h
      cases ht : read_typ s with
      | none => simp [ht] at h
      | some q =>
        obtain ⟨vty, s1⟩ := q
        simp only [ht, basrt_some] at h
        cases hic : is_container vty with
        | true => simp [hic] at h
        | false =>
          simp only [hic, Bool.not_false, bchk_true] at h
          cases hc : read_uN 1 s1 with
          | none => simp [hc] at h
          | some q2 =>
            obtain ⟨cnt, s2⟩ := q2
            simp only [hc, basrt_some] at h
            by_cases h0 : cnt = 0
            · rw [if_pos h0] at h
              simp only [Except.ok.injEq, Prod.mk.injEq] at h
              rw [← h.1]
              simp [vAll, vAllL, hopt vty [] hic]
            · rw [if_neg h0] at h
              cases hv : read_value_of fuel vty s2 with
              | error e => simp [hv] at h
              | ok q3 =>
                obtain ⟨v1, s3⟩ := q3
                simp only [hv, bwrap_ok, Except.ok.injEq, Prod.mk.injEq] at h
                rw [← h.1]
                simp [vAll, vAllL, hopt _ _ hic, ihv vty s2 v1 s3 hv]
    · -- read_list_v
      intro s v r h
      unfold read_list_v at h
      cases ht : read_typ s with
      | none => simp [ht] at h
      | some q =>
        obtain ⟨vty, s1⟩ := q
        simp only [ht, basrt_some] at h
        cases hic : is_container vty with
        | true => simp [hic] at h
        | false =>
          simp only [hic, Bool.not_false, bchk_true] at h
          cases hS : read_uN 4 s1 with
          | none => simp [hS] at h
          | some q2 =>
            obtain ⟨size, s2⟩ := q2
            simp only [hS, basrt_some] at h
            cases hc : read_uN 4 s2 with
            | none => simp [hc] at h
            | some q3 =>
              obtain ⟨cnt, s3⟩ := q3
              simp only [hc, basrt_some] at h
              cases hli : read_list_items fuel vty cnt s3 with
              | error e => simp [hli] at h
              | ok q4 =>
                obtain ⟨items, s4⟩ := q4
                simp only [hli] at h
                cases hbeq : (s2.length == s4.length + size) with
                | false => simp [hbeq] at h
                | true =>
                  simp only [hbeq, bchk_true, Except.ok.injEq,
                    Prod.mk.injEq] at h
                  rw [← h.1]
                  simp [vAll, hlist _ _ hic, ihli vty cnt s3 items s4 hli]
    · -- read_list2_v
      intro s v r h
      unfold read_list2_v at h
      cases ht : read_typ s with
      | none => simp [ht] at h
      | some q =>
        obtain ⟨vty, s1⟩ := q
        simp only [ht, basrt_some] at h
        cases hic : is_container vty with
        | true => simp [hic] at h
        | false =>
          simp only [hic, Bool.not_false, bchk_true] at h
          cases hS : read_uN 4 s1 with
          | none => simp [hS] at h
          | some q2 =>
            obtain ⟨size, s2⟩ := q2
            simp only [hS, basrt_some] at h
            cases hc : read_uN 4 s2 with
            | none => simp [hc] at h
            | some q3 =>
              obtain ⟨cnt, s3⟩ := q3
              simp only [hc, basrt_some] at h
              cases hli : read_list_items fuel vty cnt s3 with
              | error e => simp [hli] at h
              | ok q4 =>
                obtain ⟨items, s4⟩ := q4
                simp only [hli] at h
                cases hbeq : (s2.length == s4.length + size) with
                | false => simp [hbeq] at h
                | true =>
                  simp only [hbeq, bchk_true, Except.ok.injEq,
                    Prod.mk.injEq] at h
                  rw [← h.1]
                  simp [vAll, hlist2 _ _ hic, ihli vty cnt s3 items s4 hli]
    · -- read_map_v
      intro s v r h
      unfold read_map_v at h
      cases htk : read_typ s with
      | none => simp [htk] at h
      | some q =>
        obtain ⟨kty, s1⟩ := q
        simp only [htk, basrt_some] at h
        cases hip : is_primitive kty with
        | false => simp [hip] at h
        | true =>
          simp only [hip, bchk_true] at h
          cases htv : read_typ s1 with
          | none => simp [htv] at h
          | some q2 =>
            obtain ⟨vty, s2⟩ := q2
            simp only [htv, basrt_some] at h
            cases hic : is_container vty with
            | true => simp [hic] at h
            | false =>
              simp only [hic, Bool.not_false, bchk_true] at h
              cases hS : read_uN 4 s2 with
              | none => simp [hS] at h
              | some q3 =>
                obtain ⟨size, s3⟩ := q3
                simp only [hS, basrt_some] at h
                cases hc : read_uN 4 s3 with
                | none => simp [hc] at h
                | some q4 =>
                  obtain ⟨cnt, s4⟩ := q4
                  simp only [hc, basrt_some] at h
                  cases hmi : read_map_items fuel kty vty cnt s4 with
                  | error e => simp [hmi] at h
                  | ok q5 =>
                    obtain ⟨items, s5⟩ := q5
                    simp only [hmi] at h
                    cases hbeq : (s3.length == s5.length + size) with
                    | false => simp [hbeq] at h
                    | true =>
                      simp only [hbeq, bchk_true, Except.ok.injEq,
                        Prod.mk.injEq] at h
                      rw [← h.1]
                      simp [vAll, hmap _ _ _ hip hic,
                        ihmi kty vty cnt s4 items s5 hmi]


/-- Section-level propagation of the decoder invariant: if `p` additionally
accepts the synthesized `entries` map shape (`Map{ Type::HASH, Type::EMBED }`),
then after a successful decode every section value satisfies `p` on all
nodes. -/
theorem sections_vAll (p : Value → Bool)
    (hstr : ∀ s, p (.vstring s) = true)
    (hscal : ∀ t v, p (.vscalar t v) = true)
    (hlist : ∀ e its, is_container e = false → p (.vlist e its) = true)
    (hlist2 : ∀ e its, is_container e = false → p (.vlist2 e its) = true)
    (hopt : ∀ e its, is_container e = false → p (.vopt e its) = true)
    (hmap : ∀ k t its, is_primitive k = true → is_container t = false →
      p (.vmap k t its) = true)
    (hptr : ∀ n its, p (.vptr n its) = true)
    (hembed : ∀ n its, p (.vembed n its) = true)
    (hent : ∀ its, p (.vmap 17 131 its) = true) :
    ∀ prior s secs, process_st prior s = (secs, .ok ()) →
      ∀ sec ∈ secs, vAll p sec.2 = true := by
  have hdec := decode_vAll p hstr hscal hlist hlist2 hopt hmap hptr hembed
  have hEntry : ∀ fuel s kh fields r,
      read_entry fuel s = .ok ((kh, fields), r) → vAllN p fields = true := by
    intro fuel s kh fields r h
    unfold read_entry at h
    cases hL : read_uN 4 s with
    | none => simp [hL] at h
    | some q =>
      obtain ⟨L, s1⟩ := q
      simp only [hL, basrt_some] at h
      cases hk : read_uN 4 s1 with
      | none => simp [hk] at h
      | some q2 =>
        obtain ⟨kh2, s2⟩ := q2
        simp only [hk, basrt_some] at h
        cases hc : read_uN 2 s2 with
        | none => simp [hc] at h
        | some q3 =>
          obtain ⟨cnt, s3⟩ := q3
          simp only [hc, basrt_some] at h
          cases hf : read_fields fuel cnt s3 with
          | error e => simp [hf] at h
          | ok q4 =>
            obtain ⟨items, s4⟩ := q4
            simp only [hf] at h
            cases hbeq : (s1.length == s4.length + L) with
            | false => simp [hbeq] at h
            | true =>
              simp only [hbeq, bchk_true, Except.ok.injEq, Prod.mk.injEq] at h
              have : items = fields := by
                have := h.1
                simp only [Prod.mk.injEq] at this
                exact this.2
              rw [← this]
              exact (hdec fuel).2.1 cnt s3 items s4 hf
  have hPairs : ∀ fuel hashes s pairs r,
      read_entry_list fuel hashes s = .ok (pairs, r) → vAllP p pairs = true := by
    intro fuel hashes
    induction hashes with
    | nil =>
      intro s pairs r h
      unfold read_entry_list at h
      simp only [Except.ok.injEq, Prod.mk.injEq] at h
      rw [← h.1]
      simp [vAllP]
    | cons nh rest ih =>
      intro s pairs r h
      unfold read_entry_list at h
      cases he : read_entry fuel s with
      | error e => simp [he] at h
      | ok q =>
        obtain ⟨⟨kh, fields⟩, s1⟩ := q
        simp only [he, bwrap_ok] at h
        cases hrest : read_entry_list fuel rest s1 with
        | error e => simp [hrest] at h
        | ok q2 =>
          obtain ⟨pairs2, s2⟩ := q2
          simp only [hrest, Except.ok.injEq, Prod.mk.injEq] at h
          rw [← h.1]
          simp [vAllP, vAll, hscal, hembed,
            hEntry fuel s kh fields s1 he, ih s1 pairs2 s2 hrest]
  have hStrL : ∀ items : List Value,
      (∀ v ∈ items, ∃ str, v = .vstring str) → vAllL p items = true := by
    intro items
    induction items with
    | nil => intro _; simp [vAllL]
    | cons v rest ih =>
      intro hall
      obtain ⟨str, hv⟩ := hall v (by simp)
      have hrest := ih (fun x hx => hall x (by simp [hx]))
      simp [vAllL, hv, vAll, hstr, hrest]
  have hLinked : ∀ hl s val r,
      read_linked_st hl s = .ok (val, r) → vAll p val = true := by
    intro hl s val r h
    obtain ⟨items, hval, hstrs, _⟩ := read_linked_st_ok hl s val r h
    rw [hval]
    have hc : is_container 16 = false := rfl
    simp [vAll, hlist 16 items hc, hStrL items hstrs]
  have hEntries : ∀ fuel s val r,
      read_entries_st fuel s = .ok (val, r) → vAll p val = true := by
    intro fuel s val r h
    unfold read_entries_st at h
    cases hc : read_uN 4 s with
    | none => simp [hc] at h
    | some q =>
      obtain ⟨cnt, s1⟩ := q
      simp only [hc, basrt_some] at h
      cases hh : read_hashes cnt s1 with
      | none => simp [hh] at h
      | some q2 =>
        obtain ⟨hashes, s2⟩ := q2
        simp only [hh, basrt_some] at h
        cases he : read_entry_list fuel hashes s2 with
        | error e => simp [he] at h
        | ok q3 =>
          obtain ⟨pairs, s3⟩ := q3
          simp only [he, Except.ok.injEq, Prod.mk.injEq] at h
          rw [← h.1]
          simp [vAll, hent, hPairs fuel hashes s2 pairs s3 he]
  have hRest : ∀ fuel secs0 magic s secs r,
      (∀ sec ∈ secs0, vAll p sec.2 = true) →
      read_sections_rest fuel secs0 magic s = (secs, .ok r) →
      ∀ sec ∈ secs, vAll p sec.2 = true := by
    intro fuel secs0 magic s secs r h0 h
    unfold read_sections_rest at h
    cases hm : (magic == PROPb) with
    | false => simp [hm] at h
    | true =>
      simp only [hm, bchk_true] at h
      cases hv : read_uN 4 s with
      | none => simp [hv] at h
      | some q =>
        obtain ⟨ver, s1⟩ := q
        simp only [hv, basrt_some] at h
        cases hl : read_linked_st (decide (2 ≤ ver)) s1 with
        | error e => simp [hl] at h
        | ok q2 =>
          obtain ⟨linkedVal, s2⟩ := q2
          simp only [hl, bwrap_ok] at h
          cases he : read_entries_st fuel s2 with
          | error e => simp [he] at h
          | ok q3 =>
            obtain ⟨entriesVal, s3⟩ := q3
            simp only [he, bwrap_ok, Prod.mk.injEq] at h
            intro sec hsec
            rw [← h.1] at hsec
            rcases List.mem_append.mp hsec with hsec | hsec
            · rcases List.mem_append.mp hsec with hsec | hsec
              · rcases List.mem_append.mp hsec with hsec | hsec
                · exact h0 sec hsec
                · rw [List.mem_singleton] at hsec
                  rw [hsec]
                  simp [vAll, hscal]
              · rw [List.mem_singleton] at hsec
                rw [hsec]
                exact hLinked (decide (2 ≤ ver)) s1 linkedVal s2 hl
            · rw [List.mem_singleton] at hsec
              rw [hsec]
              exact hEntries fuel s2 entriesVal s3 he
  have hCore : ∀ fuel s secs r,
      read_sections_core fuel s = (secs, .ok r) →
      ∀ sec ∈ secs, vAll p sec.2 = true := by
    intro fuel s secs r h
    unfold read_sections_core at h
    cases harr : read_arr 4 s with
    | none => simp [harr] at h
    | some q =>
      obtain ⟨magic0, s0⟩ := q
      simp only [harr, basrt_some] at h
      cases hptch : (magic0 == PTCHb) with
      | true =>
        simp only [hptch, eq_self_iff_true, if_true] at h
        cases hunk : read_uN 8 s0 with
        | none => simp [hunk] at h
        | some q2 =>
          obtain ⟨unk, s1⟩ := q2
          simp only [hunk, basrt_some] at h
          cases harr2 : read_arr 4 s1 with
          | none => simp [harr2] at h
          | some q3 =>
            obtain ⟨magic1, s2⟩ := q3
            simp only [harr2, basrt_some] at h
            refine hRest fuel [("type", Value.vstring PTCHb)] magic1 s2
              secs r ?_ h
            intro sec hsec
            simp only [List.mem_singleton] at hsec
            rw [hsec]
            simp [vAll, hstr]
      | false =>
        simp only [hptch, Bool.false_eq_true, if_false] at h
        refine hRest fuel [("type", Value.vstring PROPb)] magic0 s0
          secs r ?_ h
        intro sec hsec
        simp only [List.mem_singleton] at hsec
        rw [hsec]
        simp [vAll, hstr]
  intro prior s secs h
  unfold process_st at h
  cases hst : read_sections_st (init_fuel s) s with
  | mk secs1 res =>
    rw [hst] at h
    cases res with
    | error e => simp at h
    | ok s3 =>
      simp only [Prod.mk.injEq] at h
      obtain ⟨hcore, _⟩ :=
        read_sections_st_ok_inv (init_fuel s) s secs1 s3 hst
      rw [← h.1]
      exact hCore (init_fuel s) s secs1 s3 hcore

/-- C6, as stated, is refuted by the decoder's own `entries` section: the
minimal valid buffer decodes successfully, and the resulting Document's
`entries` value is a Map whose recorded value type is the tag EMBED (131) —
by the spec's glossary a container tag — built by `read_entries`
(`Map entriesMap = { Type::HASH, Type::EMBED, {} }`, line 153) without ever
passing the container check.  So a successful decode does produce a Map
that directly nests a container in its value type. -/
theorem claim_C6_counterexample :
    (process_st [] [80, 82, 79, 80, 0, 0, 0, 0, 0, 0, 0, 0]).2 = .ok () ∧
    (process_st [] [80, 82, 79, 80, 0, 0, 0, 0, 0, 0, 0, 0]).1 =
      [("type", Value.vstring PROPb), ("version", Value.vscalar 7 0),
       ("linked", Value.vlist 16 []), ("entries", Value.vmap 17 131 [])] ∧
    is_container 131 = true := ⟨rfl, rfl, rfl⟩

/-- C6 (amended): decoding a List, List2, Option, or Map *through the
per-tag value dispatch* fails with the `!is_container` record whenever the
recorded element/value type tag is a container tag, and a Map additionally
fails with the `is_primitive` record whenever its key type is not primitive;
consequently every value decoded by the dispatch satisfies the nesting
invariant on all nodes (no container element/value types, primitive map
keys).  The synthesized top-level `entries` Map (value type EMBED, built
outside the dispatch) is the sole exception, exhibited by the
counterexample. -/
theorem claim_C6_amended :
    (∀ fuel s t s1, read_typ s = some (t, s1) → is_container t = true →
      read_list_v (fuel + 1) s = .error [(m_not_container, s1.length)]) ∧
    (∀ fuel s t s1, read_typ s = some (t, s1) → is_container t = true →
      read_list2_v (fuel + 1) s = .error [(m_not_container, s1.length)]) ∧
    (∀ fuel s t s1, read_typ s = some (t, s1) → is_container t = true →
      read_opt_v (fuel + 1) s = .error [(m_not_container, s1.length)]) ∧
    (∀ fuel s k s1 t s2, read_typ s = some (k, s1) → is_primitive k = true →
      read_typ s1 = some (t, s2) → is_container t = true →
      read_map_v (fuel + 1) s = .error [(m_not_container, s2.length)]) ∧
    (∀ fuel s k s1, read_typ s = some (k, s1) → is_primitive k = false →
      read_map_v (fuel + 1) s = .error [(m_is_primitive_key, s1.length)]) ∧
    (∀ fuel ty s v r, read_value_of fuel ty s = .ok (v, r) →
      vAll nestOk v = true) := by
  refine ⟨?_, ?_, ?_, ?_, ?_, ?_⟩
  · intro fuel s t s1 hrt hic
    unfold read_list_v
    simp [hrt, hic, bchk]
  · intro fuel s t s1 hrt hic
    unfold read_list2_v
    simp [hrt, hic, bchk]
  · intro fuel s t s1 hrt hic
    unfold read_opt_v
    simp [hrt, hic, bchk]
  · intro fuel s k s1 t s2 hrk hip hrt hic
    unfold read_map_v
    simp [hrk, hip, hrt, hic, bchk]
  · intro fuel s k s1 hrk hip
    unfold read_map_v
    simp [hrk, hip, bchk]
  · intro fuel ty s v r h
    exact (decode_vAll nestOk (fun _ => rfl) (fun _ _ => rfl)
      (fun e its hc => by simp [nestOk, hc])
      (fun e its hc => by simp [nestOk, hc])
      (fun e its hc => by simp [nestOk, hc])
      (fun k t its hk ht => by simp [nestOk, hk, ht])
      (fun _ _ => rfl) (fun _ _ => rfl) fuel).1 ty s v r h

/-- Closed instance of C6 (amended): a List whose element tag is LIST (a
container) fails on the container check. -/
theorem claim_C6_amended_witness :
    read_list_v 9 [128, 1] = .error [(m_not_container, 1)] := by
  have h := claim_C6_amended.1 8 [128, 1] 128 [1] rfl rfl
  simpa using h

/-- C10: the tag-validation step admits the `None` tag byte 0 (it lies in
the primitive range), but dispatching a field value on the `None` tag always
fails (`read_value_visit(None&)` is `bin_assert(false)`), so no Document
produced by a successful decode contains a `None` value at any node. -/
theorem claim_C10_none_dispatch :
    read_typ [0] = some (0, []) ∧
    (∀ fuel s, read_value_of (fuel + 1) 0 s = .error [(m_false, s.length)]) ∧
    (∀ prior s secs, process_st prior s = (secs, .ok ()) →
      ∀ sec ∈ secs, vAll notNone sec.2 = true) := by
  refine ⟨rfl, ?_, ?_⟩
  · intro fuel s
    rfl
  · exact sections_vAll notNone (fun _ => rfl) (fun _ _ => rfl)
      (fun _ _ _ => rfl) (fun _ _ _ => rfl) (fun _ _ _ => rfl)
      (fun _ _ _ _ _ => rfl) (fun _ _ => rfl) (fun _ _ => rfl)
      (fun _ => rfl)

/-- Closed instance of C10 on the minimal valid buffer: its `entries`
section value contains no `None` node. -/
theorem claim_C10_none_dispatch_witness :
    vAll notNone (Value.vmap 17 131 []) = true :=
  claim_C10_none_dispatch.2.2 [] [80, 82, 79, 80, 0, 0, 0, 0, 0, 0, 0, 0]
    [("type", Value.vstring PROPb), ("version", Value.vscalar 7 0),
     ("linked", Value.vlist 16 []), ("entries", Value.vmap 17 131 [])]
    rfl ("entries", Value.vmap 17 131 []) (by simp)


/-- Replay of a successful fixed-width read: the consumed block determines
the result for any continuation of the buffer. -/
theorem read_uN_replay {w : Nat} {s : Bytes} {v : Nat} {r : Bytes}
    (h : read_uN w s = some (v, r)) :
    ∃ c, s = c ++ r ∧ ∀ r', read_uN w (c ++ r') = some (v, r') := by
  obtain ⟨hw, hv, hr⟩ := read_uN_ok h
  refine ⟨s.take w, ?_, ?_⟩
  · rw [hr]
    exact (List.take_append_drop w s).symm
  · intro r'
    have hlen : (s.take w).length = w := by
      rw [List.length_take]
      omega
    rw [read_uN_append r' hlen, hv]

/-- Replay of a successful block read. -/
theorem read_arr_replay {w : Nat} {s : Bytes} {v r : Bytes}
    (h : read_arr w s = some (v, r)) :
    s = v ++ r ∧ ∀ r', read_arr w (v ++ r') = some (v, r') := by
  obtain ⟨hw, hv, hr⟩ := read_arr_ok h
  constructor
  · rw [hv, hr]
    exact (List.take_append_drop w s).symm
  · intro r'
    have hlen : v.length = w := by
      rw [hv, List.length_take]
      omega
    exact read_arr_append r' hlen

/-- Replay of a successful tag read. -/
theorem read_typ_replay {s : Bytes} {t : Nat} {r : Bytes}
    (h : read_typ s = some (t, r)) :
    ∃ c, s = c ++ r ∧ ∀ r', read_typ (c ++ r') = some (t, r') := by
  obtain ⟨hw, hv, hvt, hr⟩ := read_typ_ok h
  refine ⟨s.take 1, ?_, ?_⟩
  · rw [hr]
    exact (List.take_append_drop 1 s).symm
  · intro r'
    have hlen : (s.take 1).length = 1 := by
      rw [List.length_take]
      omega
    unfold read_typ
    rw [read_uN_append r' hlen, ← hv]
    simp [hvt]

/-- Replay of a successful string read. -/
theorem read_str_replay {s : Bytes} {v r : Bytes}
    (h : read_str s = some (v, r)) :
    ∃ c, s = c ++ r ∧ ∀ r', read_str (c ++ r') = some (v, r') := by
  unfold read_str at h
  cases hn : read_uN 2 s with
  | none => rw [hn] at h; exact Option.noConfusion h
  | some q =>
    obtain ⟨n, s1⟩ := q
    rw [hn] at h
    simp only at h
    split at h
    · rename_i hpay
      simp only [Option.some.injEq, Prod.mk.injEq] at h
      obtain ⟨hv, hr⟩ := h
      obtain ⟨c2, hdec2, hrep2⟩ := read_uN_replay hn
      refine ⟨c2 ++ s1.take n, ?_, ?_⟩
      · rw [← hr, List.append_assoc, List.take_append_drop, hdec2]
      · intro r'
        rw [List.append_assoc]
        unfold read_str
        rw [hrep2 (s1.take n ++ r')]
        have hlen : (s1.take n).length = n := by
          rw [List.length_take]
          omega
        simp only
        rw [if_pos ?pos]
        case pos =>
          rw [List.length_append, hlen]
          omega
        rw [List.take_left' hlen, List.drop_left' hlen, hv]
    · exact Option.noConfusion h

/-- `leChunksW` depends only on the consumed prefix. -/
theorem leChunksW_prefix (w : Nat) :
    ∀ n (c r r' : Bytes), c.length = w * n →
      leChunksW w n (c ++ r) = leChunksW w n (c ++ r') := by
  intro n
  induction n with
  | zero => intro c r r' hc; simp [leChunksW]
  | succ n ih =>
    intro c r r' hc
    have hwc : w ≤ c.length := by
      rw [hc]
      calc w = w * 1 := by omega
        _ ≤ w * (n + 1) := Nat.mul_le_mul_left w (by omega)
    unfold leChunksW
    rw [List.take_append_of_le_length hwc, List.take_append_of_le_length hwc]
    rw [List.drop_append_of_le_length hwc, List.drop_append_of_le_length hwc]
    have hlen2 : (c.drop w).length = w * n := by
      rw [List.length_drop, hc]
      have hmul : w * (n + 1) = w * n + w := by ring
      omega
    rw [ih (c.drop w) r r' hlen2]

/-- Replay of a successful name-hash block read. -/
theorem read_hashes_replay {n : Nat} {s : Bytes} {hs : List Nat} {r : Bytes}
    (h : read_hashes n s = some (hs, r)) :
    ∃ c, s = c ++ r ∧ ∀ r', read_hashes n (c ++ r') = some (hs, r') := by
  unfold read_hashes at h
  split at h
  · rename_i hle
    simp only [Option.some.injEq, Prod.mk.injEq] at h
    obtain ⟨hv, hr⟩ := h
    refine ⟨s.take (4 * n), ?_, ?_⟩
    · rw [← hr]
      exact (List.take_append_drop (4 * n) s).symm
    · intro r'
      have hlen : (s.take (4 * n)).length = 4 * n := by
        rw [List.length_take]
        omega
      unfold read_hashes
      rw [if_pos ?pos]
      case pos =>
        rw [List.length_append, hlen]
        omega
      rw [List.drop_left' hlen]
      have hchunks : leChunksW 4 n (s.take (4 * n) ++ r') =
          leChunksW 4 n (s.take (4 * n) ++ s.drop (4 * n)) :=
        leChunksW_prefix 4 n (s.take (4 * n)) r' (s.drop (4 * n)) hlen
      rw [hchunks, List.take_append_drop, hv]
  · exact Option.noConfusion h


/-- Replay/monotonicity of the recursive value decoder: a successful decode
consumed a definite block `c` of the buffer, and replays identically — same
value, with any continuation in place of the unread remainder — at any fuel
at least as large.  This is the extension/locality property of the decoder:
its result depends only on the bytes it consumed.  Proved by induction on
fuel. -/
theorem decode_replay :
    ∀ fuel,
      (∀ ty s v r, read_value_of fuel ty s = .ok (v, r) →
        ∃ c, s = c ++ r ∧ ∀ f' r', fuel ≤ f' →
          read_value_of f' ty (c ++ r') = .ok (v, r')) ∧
      (∀ cnt s items r, read_fields fuel cnt s = .ok (items, r) →
        ∃ c, s = c ++ r ∧ ∀ f' r', fuel ≤ f' →
          read_fields f' cnt (c ++ r') = .ok (items, r')) ∧
      (∀ ty cnt s items r, read_list_items fuel ty cnt s = .ok (items, r) →
        ∃ c, s = c ++ r ∧ ∀ f' r', fuel ≤ f' →
          read_list_items f' ty cnt (c ++ r') = .ok (items, r')) ∧
      (∀ kty vty cnt s items r,
        read_map_items fuel kty vty cnt s = .ok (items, r) →
        ∃ c, s = c ++ r ∧ ∀ f' r', fuel ≤ f' →
          read_map_items f' kty vty cnt (c ++ r') = .ok (items, r')) ∧
      (∀ s items r, read_embed_body fuel s = .ok (items, r) →
        ∃ c, s = c ++ r ∧ ∀ f' r', fuel ≤ f' →
          read_embed_body f' (c ++ r') = .ok (items, r')) ∧
      (∀ s v r, read_embed_v fuel s = .ok (v, r) →
        ∃ c, s = c ++ r ∧ ∀ f' r', fuel ≤ f' →
          read_embed_v f' (c ++ r') = .ok (v, r')) ∧
      (∀ s v r, read_ptr_v fuel s = .ok (v, r) →
        ∃ c, s = c ++ r ∧ ∀ f' r', fuel ≤ f' →
          read_ptr_v f' (c ++ r') = .ok (v, r')) ∧
      (∀ s v r, read_opt_v fuel s = .ok (v, r) →
        ∃ c, s = c ++ r ∧ ∀ f' r', fuel ≤ f' →
          read_opt_v f' (c ++ r') = .ok (v, r')) ∧
      (∀ s v r, read_list_v fuel s = .ok (v, r) →
        ∃ c, s = c ++ r ∧ ∀ f' r', fuel ≤ f' →
          read_list_v f' (c ++ r') = .ok (v, r')) ∧
      (∀ s v r, read_list2_v fuel s = .ok (v, r) →
        ∃ c, s = c ++ r ∧ ∀ f' r', fuel ≤ f' →
          read_list2_v f' (c ++ r') = .ok (v, r')) ∧
      (∀ s v r, read_map_v fuel s = .ok (v, r) →
        ∃ c, s = c ++ r ∧ ∀ f' r', fuel ≤ f' →
          read_map_v f' (c ++ r') = .ok (v, r')) := by
  intro fuel
  induction fuel with
  | zero =>
    exact ⟨fun ty s v r h => by simp [read_value_of] at h,
      fun cnt s items r h => by simp [read_fields] at h,
      fun ty cnt s items r h => by simp [read_list_items] at h,
      fun kty vty cnt s items r h => by simp [read_map_items] at h,
      fun s items r h => by simp [read_embed_body] at h,
      fun s v r h => by simp [read_embed_v] at h,
      fun s v r h => by simp [read_ptr_v] at h,
      fun s v r h => by simp [read_opt_v] at h,
      fun s v r h => by simp [read_list_v] at h,
      fun s v r h => by simp [read_list2_v] at h,
      fun s v r h => by simp [read_map_v] at h⟩
  | succ fuel ih =>
    obtain ⟨ihv, ihf, ihli, ihmi, ihb, ihe, ihp, iho, ihl, ihl2, ihm⟩ := ih
    refine ⟨?_, ?_, ?_, ?_, ?_, ?_, ?_, ?_, ?_, ?_, ?_⟩
    · -- read_value_of
      intro ty s v r h
      unfold read_value_of at h
      by_cases h16 : ty = 16
      · rw [if_pos h16] at h
        cases hs : read_str s with
        | none => simp [hs] at h
        | some q =>
          obtain ⟨str, s1⟩ := q
          simp only [hs, Except.ok.injEq, Prod.mk.injEq] at h
          obtain ⟨hv, hr⟩ := h
          subst hr
          obtain ⟨c, hdec, hrep⟩ := read_str_replay hs
          refine ⟨c, hdec, ?_⟩
          intro f' r' hle
          obtain ⟨g, rfl⟩ : ∃ g, f' = g + 1 := ⟨f' - 1, by omega⟩
          unfold read_value_of
          rw [if_pos h16]
          simp only [hrep r', hv]
      · rw [if_neg h16] at h
        by_cases h128 : ty = 128
        · rw [if_pos h128] at h
          obtain ⟨c, hdec, hrep⟩ := ihl s v r h
          refine ⟨c, hdec, ?_⟩
          intro f' r' hle
          obtain ⟨g, rfl⟩ : ∃ g, f' = g + 1 := ⟨f' - 1, by omega⟩
          unfold read_value_of
          rw [if_neg h16, if_pos h128]
          exact hrep g r' (by omega)
        · rw [if_neg h128] at h
          by_cases h129 : ty = 129
          · rw [if_pos h129] at h
            obtain ⟨c, hdec, hrep⟩ := ihl2 s v r h
            refine ⟨c, hdec, ?_⟩
            intro f' r' hle
            obtain ⟨g, rfl⟩ : ∃ g, f' = g + 1 := ⟨f' - 1, by omega⟩
            unfold read_value_of
            rw [if_neg h16, if_neg h128, if_pos h129]
            exact hrep g r' (by omega)
          · rw [if_neg h129] at h
            by_cases h130 : ty = 130
            · rw [if_pos h130] at h
              obtain ⟨c, hdec, hrep⟩ := ihp s v r h
              refine ⟨c, hdec, ?_⟩
              intro f' r' hle
              obtain ⟨g, rfl⟩ : ∃ g, f' = g + 1 := ⟨f' - 1, by omega⟩
              unfold read_value_of
              rw [if_neg h16, if_neg h128, if_neg h129, if_pos h130]
              exact hrep g r' (by omega)
            · rw [if_neg h130] at h
              by_cases h131 : ty = 131
              · rw [if_pos h131] at h
                obtain ⟨c, hdec, hrep⟩ := ihe s v r h
                refine ⟨c, hdec, ?_⟩
                intro f' r' hle
                obtain ⟨g, rfl⟩ : ∃ g, f' = g + 1 := ⟨f' - 1, by omega⟩
                unfold read_value_of
                rw [if_neg h16, if_neg h128, if_neg h129, if_neg h130,
                  if_pos h131]
                exact hrep g r' (by omega)
              · rw [if_neg h131] at h
                by_cases h133 : ty = 133
                · rw [if_pos h133] at h
                  obtain ⟨c, hdec, hrep⟩ := iho s v r h
                  refine ⟨c, hdec, ?_⟩
                  intro f' r' hle
                  obtain ⟨g, rfl⟩ : ∃ g, f' = g + 1 := ⟨f' - 1, by omega⟩
                  unfold read_value_of
                  rw [if_neg h16, if_neg h128, if_neg h129, if_neg h130,
                    if_neg h131, if_pos h133]
                  exact hrep g r' (by omega)
                · rw [if_neg h133] at h
                  by_cases h134 : ty = 134
                  · rw [if_pos h134] at h
                    obtain ⟨c, hdec, hrep⟩ := ihm s v r h
                    refine ⟨c, hdec, ?_⟩
                    intro f' r' hle
                    obtain ⟨g, rfl⟩ : ∃ g, f' = g + 1 := ⟨f' - 1, by omega⟩
                    unfold read_value_of
                    rw [if_neg h16, if_neg h128, if_neg h129, if_neg h130,
                      if_neg h131, if_neg h133, if_pos h134]
                    exact hrep g r' (by omega)
                  · rw [if_neg h134] at h
                    by_cases hw0 : scalar_width ty = 0
                    · rw [if_pos hw0] at h
                      simp at h
                    · rw [if_neg hw0] at h
                      cases hs : read_uN (scalar_width ty) s with
                      | none => simp [hs] at h
                      | some q =>
                        obtain ⟨val, s1⟩ := q
                        simp only [hs, Except.ok.injEq, Prod.mk.injEq] at h
                        obtain ⟨hv, hr⟩ := h
                        subst hr
                        obtain ⟨c, hdec, hrep⟩ := read_uN_replay hs
                        refine ⟨c, hdec, ?_⟩
                        intro f' r' hle
                        obtain ⟨g, rfl⟩ : ∃ g, f' = g + 1 := ⟨f' - 1, by omega⟩
                        unfold read_value_of
                        rw [if_neg h16, if_neg h128, if_neg h129, if_neg h130,
                          if_neg h131, if_neg h133, if_neg h134, if_neg hw0]
                        simp only [hrep r', hv]
    · -- read_fields
      intro cnt s items r h
      unfold read_fields at h
      cases cnt with
      | zero =>
        simp only [Except.ok.injEq, Prod.mk.injEq] at h
        obtain ⟨hi, hr⟩ := h
        subst hr
        refine ⟨[], by simp, ?_⟩
        intro f' r' hle
        obtain ⟨g, rfl⟩ : ∃ g, f' = g + 1 := ⟨f' - 1, by omega⟩
        simp only [read_fields, List.nil_append]
        rw [← hi]
      | succ cnt =>
        cases hn : read_uN 4 s with
        | none => simp [hn] at h
        | some q =>
          obtain ⟨name, s1⟩ := q
          simp only [hn, basrt_some] at h
          cases ht : read_typ s1 with
          | none => simp [ht] at h
          | some q2 =>
            obtain ⟨ty, s2⟩ := q2
            simp only [ht, basrt_some] at h
            cases hv : read_value_of fuel ty s2 with
            | error e => simp [hv] at h
            | ok q3 =>
              obtain ⟨v1, s3⟩ := q3
              simp only [hv, bwrap_ok] at h
              cases hrest : read_fields fuel cnt s3 with
              | error e => simp [hrest] at h
              | ok q4 =>
                obtain ⟨rest, s4⟩ := q4
                simp only [hrest, Except.ok.injEq, Prod.mk.injEq] at h
                obtain ⟨hi, hr⟩ := h
                subst hr
                obtain ⟨cN, hdN, hrN⟩ := read_uN_replay hn
                obtain ⟨cT, hdT, hrT⟩ := read_typ_replay ht
                obtain ⟨cV, hdV, hrV⟩ := ihv ty s2 v1 s3 hv
                obtain ⟨cR, hdR, hrR⟩ := ihf cnt s3 rest s4 hrest
                refine ⟨cN ++ (cT ++ (cV ++ cR)), ?_, ?_⟩
                · rw [hdN, hdT, hdV, hdR]
                  simp [List.append_assoc]
                · intro f' r' hle
                  obtain ⟨g, rfl⟩ : ∃ g, f' = g + 1 := ⟨f' - 1, by omega⟩
                  have hg : fuel ≤ g := by omega
                  rw [List.append_assoc cN (cT ++ (cV ++ cR)) r']
                  simp only [read_fields]
                  rw [hrN ((cT ++ (cV ++ cR)) ++ r')]
                  simp only [basrt_some]
                  rw [List.append_assoc cT (cV ++ cR) r']
                  rw [hrT ((cV ++ cR) ++ r')]
                  simp only [basrt_some]
                  rw [List.append_assoc cV cR r']
                  simp only [hrV g (cR ++ r') hg, bwrap_ok]
                  simp only [hrR g r' hg]
                  rw [← hi]
    · -- read_list_items
      intro ty cnt s items r h
      unfold read_list_items at h
      cases cnt with
      | zero =>
        simp only [Except.ok.injEq, Prod.mk.injEq] at h
        obtain ⟨hi, hr⟩ := h
        subst hr
        refine ⟨[], by simp, ?_⟩
        intro f' r' hle
        obtain ⟨g, rfl⟩ : ∃ g, f' = g + 1 := ⟨f' - 1, by omega⟩
        simp only [read_list_items, List.nil_append]
        rw [← hi]
      | succ cnt =>
        cases hv : read_value_of fuel ty s with
        | error e => simp [hv] at h
        | ok q =>
          obtain ⟨v1, s1⟩ := q
          simp only [hv, bwrap_ok] at h
          cases hrest : read_list_items fuel ty cnt s1 with
          | error e => simp [hrest] at h
          | ok q2 =>
            obtain ⟨rest, s2⟩ := q2
            simp only [hrest, Except.ok.injEq, Prod.mk.injEq] at h
            obtain ⟨hi, hr⟩ := h
            subst hr
            obtain ⟨cV, hdV, hrV⟩ := ihv ty s v1 s1 hv
            obtain ⟨cR, hdR, hrR⟩ := ihli ty cnt s1 rest s2 hrest
            refine ⟨cV ++ cR, ?_, ?_⟩
            · rw [hdV, hdR]
              simp [List.append_assoc]
            · intro f' r' hle
              obtain ⟨g, rfl⟩ : ∃ g, f' = g + 1 := ⟨f' - 1, by omega⟩
              have hg : fuel ≤ g := by omega
              rw [List.append_assoc cV cR r']
              simp only [read_list_items]
              simp only [hrV g (cR ++ r') hg, bwrap_ok]
              simp only [hrR g r' hg]
              rw [← hi]
    · -- read_map_items
      intro kty vty cnt s items r h
      unfold read_map_items at h
      cases cnt with
      | zero =>
        simp only [Except.ok.injEq, Prod.mk.injEq] at h
        obtain ⟨hi, hr⟩ := h
        subst hr
        refine ⟨[], by simp, ?_⟩
        intro f' r' hle
        obtain ⟨g, rfl⟩ : ∃ g, f' = g + 1 := ⟨f' - 1, by omega⟩
        simp only [read_map_items, List.nil_append]
        rw [← hi]
      | succ cnt =>
        cases hk : read_value_of fuel kty s with
        | error e => simp [hk] at h
        | ok q =>
          obtain ⟨k1, s1⟩ := q
          simp only [hk, bwrap_ok] at h
          cases hv : read_value_of fuel vty s1 with
          | error e => simp [hv] at h
          | ok q2 =>
            obtain ⟨v1, s2⟩ := q2
            simp only [hv, bwrap_ok] at h
            cases hrest : read_map_items fuel kty vty cnt s2 with
            | error e => simp [hrest] at h
            | ok q3 =>
              obtain ⟨rest, s3⟩ := q3
              simp only [hrest, Except.ok.injEq, Prod.mk.injEq] at h
              obtain ⟨hi, hr⟩ := h
              subst hr
              obtain ⟨cK, hdK, hrK⟩ := ihv kty s k1 s1 hk
              obtain ⟨cV, hdV, hrV⟩ := ihv vty s1 v1 s2 hv
              obtain ⟨cR, hdR, hrR⟩ := ihmi kty vty cnt s2 rest s3 hrest
              refine ⟨cK ++ (cV ++ cR), ?_, ?_⟩
              · rw [hdK, hdV, hdR]
                simp [List.append_assoc]
              · intro f' r' hle
                obtain ⟨g, rfl⟩ : ∃ g, f' = g + 1 := ⟨f' - 1, by omega⟩
                have hg : fuel ≤ g := by omega
                rw [List.append_assoc cK (cV ++ cR) r']
                simp only [read_map_items]
                simp only [hrK g ((cV ++ cR) ++ r') hg, bwrap_ok]
                rw [List.append_assoc cV cR r']
                simp only [hrV g (cR ++ r') hg, bwrap_ok]
                simp only [hrR g r' hg]
                rw [← hi]
    · -- read_embed_body
      intro s items r h
      unfold read_embed_body at h
      cases hS : read_uN 4 s with
      | none => simp [hS] at h
      | some q =>
        obtain ⟨size, s1⟩ := q
        simp only [hS, basrt_some] at h
        cases hc : read_uN 2 s1 with
        | none => simp [hc] at h
        | some q2 =>
          obtain ⟨cnt, s2⟩ := q2
          simp only [hc, basrt_some] at h
          cases hf : read_fields fuel cnt s2 with
          | error e => simp [hf] at h
          | ok q3 =>
            obtain ⟨its, s3⟩ := q3
            simp only [hf] at h
            cases hbeq : (s1.length == s3.length + size) with
            | false => simp [hbeq] at h
            | true =>
              simp only [hbeq, bchk_true, Except.ok.injEq, Prod.mk.injEq] at h
              obtain ⟨hi, hr⟩ := h
              obtain ⟨cS, hdS, hrS⟩ := read_uN_replay hS
              obtain ⟨cC, hdC, hrC⟩ := read_uN_replay hc
              obtain ⟨cF, hdF, hrF⟩ := ihf cnt s2 its s3 hf
              have hb : s1.length = s3.length + size := beq_iff_eq.mp hbeq
              rw [← hi, ← hr]
              have hsize : size = cC.length + cF.length := by
                rw [hdC, hdF] at hb
                simp only [List.length_append] at hb
                omega
              refine ⟨cS ++ (cC ++ cF), ?_, ?_⟩
              · rw [hdS, hdC, hdF]
                simp [List.append_assoc]
              · intro f' r' hle
                obtain ⟨g, rfl⟩ : ∃ g, f' = g + 1 := ⟨f' - 1, by omega⟩
                have hg : fuel ≤ g := by omega
                rw [List.append_assoc cS (cC ++ cF) r']
                simp only [read_embed_body]
                rw [hrS ((cC ++ cF) ++ r')]
                simp only [basrt_some]
                rw [List.append_assoc cC cF r']
                rw [hrC (cF ++ r')]
                simp only [basrt_some]
                have hcond : ((cC ++ (cF ++ r')).length == r'.length + size) = true := by
                  rw [beq_iff_eq]
                  simp only [List.length_append]
                  omega
                simp only [hrF g r' hg, hcond, bchk_true]
    · -- read_embed_v
      intro s v r h
      unfold read_embed_v at h
      cases hn : read_uN 4 s with
      | none => simp [hn] at h
      | some q =>
        obtain ⟨name, s1⟩ := q
        simp only [hn, basrt_some] at h
        cases hb : read_embed_body fuel s1 with
        | error e => simp [hb] at h
        | ok q2 =>
          obtain ⟨items, s2⟩ := q2
          simp only [hb, Except.ok.injEq, Prod.mk.injEq] at h
          obtain ⟨hv, hr⟩ := h
          subst hr
          obtain ⟨cN, hdN, hrN⟩ := read_uN_replay hn
          obtain ⟨cB, hdB, hrB⟩ := ihb s1 items s2 hb
          refine ⟨cN ++ cB, ?_, ?_⟩
          · rw [hdN, hdB]
            simp [List.append_assoc]
          · intro f' r' hle
            obtain ⟨g, rfl⟩ : ∃ g, f' = g + 1 := ⟨f' - 1, by omega⟩
            have hg : fuel ≤ g := by omega
            rw [List.append_assoc cN cB r']
            simp only [read_embed_v]
            rw [hrN (cB ++ r')]
            simp only [basrt_some]
            simp only [hrB g r' hg]
            rw [← hv]
    · -- read_ptr_v
      intro s v r h
      unfold read_ptr_v at h
      cases hn : read_uN 4 s with
      | none => simp [hn] at h
      | some q =>
        obtain ⟨name, s1⟩ := q
        simp only [hn, basrt_some] at h
        obtain ⟨cN, hdN, hrN⟩ := read_uN_replay hn
        by_cases hz : name = 0
        · rw [if_pos hz] at h
          simp only [Except.ok.injEq, Prod.mk.injEq] at h
          obtain ⟨hv, hr⟩ := h
          subst hr
          refine ⟨cN, hdN, ?_⟩
          intro f' r' hle
          obtain ⟨g, rfl⟩ : ∃ g, f' = g + 1 := ⟨f' - 1, by omega⟩
          simp only [read_ptr_v]
          rw [hrN r']
          simp only [basrt_some]
          rw [if_pos hz, ← hv]
        · rw [if_neg hz] at h
          cases hb : read_embed_body fuel s1 with
          | error e => simp [hb] at h
          | ok q2 =>
            obtain ⟨items, s2⟩ := q2
            simp only [hb, Except.ok.injEq, Prod.mk.injEq] at h
            obtain ⟨hv, hr⟩ := h
            subst hr
            obtain ⟨cB, hdB, hrB⟩ := ihb s1 items s2 hb
            refine ⟨cN ++ cB, ?_, ?_⟩
            · rw [hdN, hdB]
              simp [List.append_assoc]
            · intro f' r' hle
              obtain ⟨g, rfl⟩ : ∃ g, f' = g + 1 := ⟨f' - 1, by omega⟩
              have hg : fuel ≤ g := by omega
              rw [List.append_assoc cN cB r']
              simp only [read_ptr_v]
              rw [hrN (cB ++ r')]
              simp only [basrt_some]
              rw [if_neg hz]
              simp only [hrB g r' hg]
              rw [← hv]
    · -- read_opt_v
      intro s v r h
      unfold read_opt_v at h
      cases ht : read_typ s with
      | none => simp [ht] at h
      | some q =>
        obtain ⟨vty, s1⟩ := q
        simp only [ht, basrt_some] at h
        cases hic : is_container vty with
        | true => simp [hic] at h
        | false =>
          simp only [hic, Bool.not_false, bchk_true] at h
          cases hc : read_uN 1 s1 with
          | none => simp [hc] at h
          | some q2 =>
            obtain ⟨cnt, s2⟩ := q2
            simp only [hc, basrt_some] at h
            obtain ⟨cT, hdT, hrT⟩ := read_typ_replay ht
            obtain ⟨cC, hdC, hrC⟩ := read_uN_replay hc
            by_cases h0 : cnt = 0
            · rw [if_pos h0] at h
              simp only [Except.ok.injEq, Prod.mk.injEq] at h
              obtain ⟨hv, hr⟩ := h
              subst hr
              refine ⟨cT ++ cC, ?_, ?_⟩
              · rw [hdT, hdC]
                simp [List.append_assoc]
              · intro f' r' hle
                obtain ⟨g, rfl⟩ : ∃ g, f' = g + 1 := ⟨f' - 1, by omega⟩
                rw [List.append_assoc cT cC r']
                simp only [read_opt_v]
                rw [hrT (cC ++ r')]
                simp only [basrt_some, hic, Bool.not_false, bchk_true]
                rw [hrC r']
                simp only [basrt_some]
                rw [if_pos h0, ← hv]
            · rw [if_neg h0] at h
              cases hval : read_value_of fuel vty s2 with
              | error e => simp [hval] at h
              | ok q3 =>
                obtain ⟨v1, s3⟩ := q3
                simp only [hval, bwrap_ok, Except.ok.injEq, Prod.mk.injEq] at h
                obtain ⟨hv, hr⟩ := h
                subst hr
                obtain ⟨cV, hdV, hrV⟩ := ihv vty s2 v1 s3 hval
                refine ⟨cT ++ (cC ++ cV), ?_, ?_⟩
                · rw [hdT, hdC, hdV]
                  simp [List.append_assoc]
                · intro f' r' hle
                  obtain ⟨g, rfl⟩ : ∃ g, f' = g + 1 := ⟨f' - 1, by omega⟩
                  have hg : fuel ≤ g := by omega
                  rw [List.append_assoc cT (cC ++ cV) r']
                  simp only [read_opt_v]
                  rw [hrT ((cC ++ cV) ++ r')]
                  simp only [basrt_some, hic, Bool.not_false, bchk_true]
                  rw [List.append_assoc cC cV r']
                  rw [hrC (cV ++ r')]
                  simp only [basrt_some]
                  rw [if_neg h0]
                  simp only [hrV g r' hg, bwrap_ok]
                  rw [← hv]
    · -- read_list_v
      intro s v r h
      unfold read_list_v at h
      cases ht : read_typ s with
      | none => simp [ht] at h
      | some q =>
        obtain ⟨vty, s1⟩ := q
        simp only [ht, basrt_some] at h
        cases hic : is_container vty with
        | true => simp [hic] at h
        | false =>
          simp only [hic, Bool.not_false, bchk_true] at h
          cases hS : read_uN 4 s1 with
          | none => simp [hS] at h
          | some q2 =>
            obtain ⟨size, s2⟩ := q2
            simp only [hS, basrt_some] at h
            cases hc : read_uN 4 s2 with
            | none => simp [hc] at h
            | some q3 =>
              obtain ⟨cnt, s3⟩ := q3
              simp only [hc, basrt_some] at h
              cases hli : read_list_items fuel vty cnt s3 with
              | error e => simp [hli] at h
              | ok q4 =>
                obtain ⟨items, s4⟩ := q4
                simp only [hli] at h
                cases hbeq : (s2.length == s4.length + size) with
                | false => simp [hbeq] at h
                | true =>
                  simp only [hbeq, bchk_true, Except.ok.injEq,
                    Prod.mk.injEq] at h
                  obtain ⟨hv, hr⟩ := h
                  subst hr
                  obtain ⟨cT, hdT, hrT⟩ := read_typ_replay ht
                  obtain ⟨cS, hdS, hrS⟩ := read_uN_replay hS
                  obtain ⟨cC, hdC, hrC⟩ := read_uN_replay hc
                  obtain ⟨cI, hdI, hrI⟩ := ihli vty cnt s3 items s4 hli
                  have hb : s2.length = s4.length + size := beq_iff_eq.mp hbeq
                  have hsize : size = cC.length + cI.length := by
                    rw [hdC, hdI] at hb
                    simp only [List.length_append] at hb
                    omega
                  refine ⟨cT ++ (cS ++ (cC ++ cI)), ?_, ?_⟩
                  · rw [hdT, hdS, hdC, hdI]
                    simp [List.append_assoc]
                  · intro f' r' hle
                    obtain ⟨g, rfl⟩ : ∃ g, f' = g + 1 := ⟨f' - 1, by omega⟩
                    have hg : fuel ≤ g := by omega
                    rw [List.append_assoc cT (cS ++ (cC ++ cI)) r']
                    simp only [read_list_v]
                    rw [hrT ((cS ++ (cC ++ cI)) ++ r')]
                    simp only [basrt_some, hic, Bool.not_false, bchk_true]
                    rw [List.append_assoc cS (cC ++ cI) r']
                    rw [hrS ((cC ++ cI) ++ r')]
                    simp only [basrt_some]
                    rw [List.append_assoc cC cI r']
                    rw [hrC (cI ++ r')]
                    simp only [basrt_some]
                    have hcond : ((cC ++ (cI ++ r')).length == r'.length + size) = true := by
                      rw [beq_iff_eq]
                      simp only [List.length_append]
                      omega
                    simp only [hrI g r' hg, hcond, bchk_true]
                    rw [← hv]
    · -- read_list2_v
      intro s v r h
      unfold read_list2_v at h
      cases ht : read_typ s with
      | none => simp [ht] at h
      | some q =>
        obtain ⟨vty, s1⟩ := q
        simp only [ht, basrt_some] at h
        cases hic : is_container vty with
        | true => simp [hic] at h
        | false =>
          simp only [hic, Bool.not_false, bchk_true] at h
          cases hS : read_uN 4 s1 with
          | none => simp [hS] at h
          | some q2 =>
            obtain ⟨size, s2⟩ := q2
            simp only [hS, basrt_some] at h
            cases hc : read_uN 4 s2 with
            | none => simp [hc] at h
            | some q3 =>
              obtain ⟨cnt, s3⟩ := q3
              simp only [hc, basrt_some] at h
              cases hli : read_list_items fuel vty cnt s3 with
              | error e => simp [hli] at h
              | ok q4 =>
                obtain ⟨items, s4⟩ := q4
                simp only [hli] at h
                cases hbeq : (s2.length == s4.length + size) with
                | false => simp [hbeq] at h
                | true =>
                  simp only [hbeq, bchk_true, Except.ok.injEq,
                    Prod.mk.injEq] at h
                  obtain ⟨hv, hr⟩ := h
                  subst hr
                  obtain ⟨cT, hdT, hrT⟩ := read_typ_replay ht
                  obtain ⟨cS, hdS, hrS⟩ := read_uN_replay hS
                  obtain ⟨cC, hdC, hrC⟩ := read_uN_replay hc
                  obtain ⟨cI, hdI, hrI⟩ := ihli vty cnt s3 items s4 hli
                  have hb : s2.length = s4.length + size := beq_iff_eq.mp hbeq
                  have hsize : size = cC.length + cI.length := by
                    rw [hdC, hdI] at hb
                    simp only [List.length_append] at hb
                    omega
                  refine ⟨cT ++ (cS ++ (cC ++ cI)), ?_, ?_⟩
                  · rw [hdT, hdS, hdC, hdI]
                    simp [List.append_assoc]
                  · intro f' r' hle
                    obtain ⟨g, rfl⟩ : ∃ g, f' = g + 1 := ⟨f' - 1, by omega⟩
                    have hg : fuel ≤ g := by omega
                    rw [List.append_assoc cT (cS ++ (cC ++ cI)) r']
                    simp only [read_list2_v]
                    rw [hrT ((cS ++ (cC ++ cI)) ++ r')]
                    simp only [basrt_some, hic, Bool.not_false, bchk_true]
                    rw [List.append_assoc cS (cC ++ cI) r']
                    rw [hrS ((cC ++ cI) ++ r')]
                    simp only [basrt_some]
                    rw [List.append_assoc cC cI r']
                    rw [hrC (cI ++ r')]
                    simp only [basrt_some]
                    have hcond : ((cC ++ (cI ++ r')).length == r'.length + size) = true := by
                      rw [beq_iff_eq]
                      simp only [List.length_append]
                      omega
                    simp only [hrI g r' hg, hcond, bchk_true]
                    rw [← hv]
    · -- read_map_v
      intro s v r h
      unfold read_map_v at h
      cases htk : read_typ s with
      | none => simp [htk] at h
      | some q =>
        obtain ⟨kty, s1⟩ := q
        simp only [htk, basrt_some] at h
        cases hip : is_primitive kty with
        | false => simp [hip] at h
        | true =>
          simp only [hip, bchk_true] at h
          cases htv : read_typ s1 with
          | none => simp [htv] at h
          | some q2 =>
            obtain ⟨vty, s2⟩ := q2
            simp only [htv, basrt_some] at h
            cases hic : is_container vty with
            | true => simp [hic] at h
            | false =>
              simp only [hic, Bool.not_false, bchk_true] at h
              cases hS : read_uN 4 s2 with
              | none => simp [hS] at h
              | some q3 =>
                obtain ⟨size, s3⟩ := q3
                simp only [hS, basrt_some] at h
                cases hc : read_uN 4 s3 with
                | none => simp [hc] at h
                | some q4 =>
                  obtain ⟨cnt, s4⟩ := q4
                  simp only [hc, basrt_some] at h
                  cases hmi : read_map_items fuel kty vty cnt s4 with
                  | error e => simp [hmi] at h
                  | ok q5 =>
                    obtain ⟨items, s5⟩ := q5
                    simp only [hmi] at h
                    cases hbeq : (s3.length == s5.length + size) with
                    | false => simp [hbeq] at h
                    | true =>
                      simp only [hbeq, bchk_true, Except.ok.injEq,
                        Prod.mk.injEq] at h
                      obtain ⟨hv, hr⟩ := h
                      subst hr
                      obtain ⟨cK, hdK, hrK⟩ := read_typ_replay htk
                      obtain ⟨cT, hdT, hrT⟩ := read_typ_replay htv
                      obtain ⟨cS, hdS, hrS⟩ := read_uN_replay hS
                      obtain ⟨cC, hdC, hrC⟩ := read_uN_replay hc
                      obtain ⟨cI, hdI, hrI⟩ := ihmi kty vty cnt s4 items s5 hmi
                      have hb : s3.length = s5.length + size := beq_iff_eq.mp hbeq
                      have hsize : size = cC.length + cI.length := by
                        rw [hdC, hdI] at hb
                        simp only [List.length_append] at hb
                        omega
                      refine ⟨cK ++ (cT ++ (cS ++ (cC ++ cI))), ?_, ?_⟩
                      · rw [hdK, hdT, hdS, hdC, hdI]
                        simp [List.append_assoc]
                      · intro f' r' hle
                        obtain ⟨g, rfl⟩ : ∃ g, f' = g + 1 := ⟨f' - 1, by omega⟩
                        have hg : fuel ≤ g := by omega
                        rw [List.append_assoc cK (cT ++ (cS ++ (cC ++ cI))) r']
                        simp only [read_map_v]
                        rw [hrK ((cT ++ (cS ++ (cC ++ cI))) ++ r')]
                        simp only [basrt_some, hip, bchk_true]
                        rw [List.append_assoc cT (cS ++ (cC ++ cI)) r']
                        rw [hrT ((cS ++ (cC ++ cI)) ++ r')]
                        simp only [basrt_some, hic, Bool.not_false, bchk_true]
                        rw [List.append_assoc cS (cC ++ cI) r']
                        rw [hrS ((cC ++ cI) ++ r')]
                        simp only [basrt_some]
                        rw [List.append_assoc cC cI r']
                        rw [hrC (cI ++ r')]
                        simp only [basrt_some]
                        have hcond : ((cC ++ (cI ++ r')).length == r'.length + size) = true := by
                          rw [beq_iff_eq]
                          simp only [List.length_append]
                          omega
                        simp only [hrI g r' hg, hcond, bchk_true]
                        rw [← hv]


/-- Replay of a successful entry decode. -/
theorem read_entry_replay (fuel : Nat) (s : Bytes)
    (v : Nat × List (Nat × Value)) (r : Bytes)
    (h : read_entry fuel s = .ok (v, r)) :
    ∃ c, s = c ++ r ∧ ∀ f' r', fuel ≤ f' →
      read_entry f' (c ++ r') = .ok (v, r') := by
  unfold read_entry at h
  cases hL : read_uN 4 s with
  | none => simp [hL] at h
  | some q =>
    obtain ⟨L, s1⟩ := q
    simp only [hL, basrt_some] at h
    cases hk : read_uN 4 s1 with
    | none => simp [hk] at h
    | some q2 =>
      obtain ⟨kh, s2⟩ := q2
      simp only [hk, basrt_some] at h
      cases hc : read_uN 2 s2 with
      | none => simp [hc] at h
      | some q3 =>
        obtain ⟨cnt, s3⟩ := q3
        simp only [hc, basrt_some] at h
        cases hf : read_fields fuel cnt s3 with
        | error e => simp [hf] at h
        | ok q4 =>
          obtain ⟨items, s4⟩ := q4
          simp only [hf] at h
          cases hbeq : (s1.length == s4.length + L) with
          | false => simp [hbeq] at h
          | true =>
            simp only [hbeq, bchk_true, Except.ok.injEq, Prod.mk.injEq] at h
            obtain ⟨hv, hr⟩ := h
            obtain ⟨cL, hdL, hrL⟩ := read_uN_replay hL
            obtain ⟨cK, hdK, hrK⟩ := read_uN_replay hk
            obtain ⟨cC, hdC, hrC⟩ := read_uN_replay hc
            obtain ⟨cF, hdF, hrF⟩ := (decode_replay fuel).2.1 cnt s3 items s4 hf
            have hb : s1.length = s4.length + L := beq_iff_eq.mp hbeq
            have hsize : L = cK.length + cC.length + cF.length := by
              rw [hdK, hdC, hdF] at hb
              simp only [List.length_append] at hb
              omega
            rw [← hv, ← hr]
            refine ⟨cL ++ (cK ++ (cC ++ cF)), ?_, ?_⟩
            · rw [hdL, hdK, hdC, hdF]
              simp [List.append_assoc]
            · intro f' r' hle
              rw [List.append_assoc cL (cK ++ (cC ++ cF)) r']
              unfold read_entry
              rw [hrL ((cK ++ (cC ++ cF)) ++ r')]
              simp only [basrt_some]
              rw [List.append_assoc cK (cC ++ cF) r']
              rw [hrK ((cC ++ cF) ++ r')]
              simp only [basrt_some]
              rw [List.append_assoc cC cF r']
              rw [hrC (cF ++ r')]
              simp only [basrt_some]
              have hcond : ((cK ++ (cC ++ (cF ++ r'))).length ==
                  r'.length + L) = true := by
                rw [beq_iff_eq]
                simp only [List.length_append]
                omega
              simp only [hrF f' r' hle, hcond, bchk_true]

/-- Replay of a successful entry loop. -/
theorem read_entry_list_replay (fuel : Nat) (hashes : List Nat) (s : Bytes)
    (pairs : List (Value × Value)) (r : Bytes)
    (h : read_entry_list fuel hashes s = .ok (pairs, r)) :
    ∃ c, s = c ++ r ∧ ∀ f' r', fuel ≤ f' →
      read_entry_list f' hashes (c ++ r') = .ok (pairs, r') := by
  induction hashes generalizing s pairs r with
  | nil =>
    unfold read_entry_list at h
    simp only [Except.ok.injEq, Prod.mk.injEq] at h
    obtain ⟨hp, hr⟩ := h
    rw [← hp, ← hr]
    refine ⟨[], by simp, ?_⟩
    intro f' r' hle
    simp [read_entry_list]
  | cons nh rest ih =>
    unfold read_entry_list at h
    cases he : read_entry fuel s with
    | error e => simp [he] at h
    | ok q =>
      obtain ⟨⟨kh, fields⟩, s1⟩ := q
      simp only [he, bwrap_ok] at h
      cases hrest : read_entry_list fuel rest s1 with
      | error e => simp [hrest] at h
      | ok q2 =>
        obtain ⟨pairs2, s2⟩ := q2
        simp only [hrest, Except.ok.injEq, Prod.mk.injEq] at h
        obtain ⟨hp, hr⟩ := h
        rw [← hp, ← hr]
        obtain ⟨cE, hdE, hrE⟩ := read_entry_replay fuel s (kh, fields) s1 he
        obtain ⟨cR, hdR, hrR⟩ := ih s1 pairs2 s2 hrest
        refine ⟨cE ++ cR, ?_, ?_⟩
        · rw [hdE, hdR]
          simp [List.append_assoc]
        · intro f' r' hle
          rw [List.append_assoc cE cR r']
          unfold read_entry_list
          simp only [hrE f' (cR ++ r') hle, bwrap_ok]
          simp only [hrR f' r' hle]

/-- Replay of the linked-files string loop. -/
theorem read_linked_items_replay (n : Nat) (s : Bytes) (items : List Value)
    (r : Bytes) (h : read_linked_items n s = .ok (items, r)) :
    ∃ c, s = c ++ r ∧ ∀ r',
      read_linked_items n (c ++ r') = .ok (items, r') := by
  induction n generalizing s items r with
  | zero =>
    unfold read_linked_items at h
    simp only [Except.ok.injEq, Prod.mk.injEq] at h
    obtain ⟨hp, hr⟩ := h
    rw [← hp, ← hr]
    refine ⟨[], by simp, ?_⟩
    intro r'
    simp [read_linked_items]
  | succ n ih =>
    unfold read_linked_items at h
    cases hs : read_str s with
    | none => simp [hs] at h
    | some q =>
      obtain ⟨v, s1⟩ := q
      simp only [hs, basrt_some] at h
      cases hrest : read_linked_items n s1 with
      | error e => simp [hrest] at h
      | ok q2 =>
        obtain ⟨rest, s2⟩ := q2
        simp only [hrest, Except.ok.injEq, Prod.mk.injEq] at h
        obtain ⟨hp, hr⟩ := h
        rw [← hp, ← hr]
        obtain ⟨cS, hdS, hrS⟩ := read_str_replay hs
        obtain ⟨cR, hdR, hrR⟩ := ih s1 rest s2 hrest
        refine ⟨cS ++ cR, ?_, ?_⟩
        · rw [hdS, hdR]
          simp [List.append_assoc]
        · intro r'
          rw [List.append_assoc cS cR r']
          unfold read_linked_items
          rw [hrS (cR ++ r')]
          simp only [basrt_some]
          simp only [hrR r']

/-- Replay of the linked-files section decode. -/
theorem read_linked_st_replay (hl : Bool) (s : Bytes) (val : Value)
    (r : Bytes) (h : read_linked_st hl s = .ok (val, r)) :
    ∃ c, s = c ++ r ∧ ∀ r',
      read_linked_st hl (c ++ r') = .ok (val, r') := by
  cases hl with
  | false =>
    unfold read_linked_st at h
    simp only [Bool.false_eq_true, if_false, Except.ok.injEq,
      Prod.mk.injEq] at h
    obtain ⟨hp, hr⟩ := h
    rw [← hp, ← hr]
    refine ⟨[], by simp, ?_⟩
    intro r'
    simp [read_linked_st]
  | true =>
    unfold read_linked_st at h
    simp only [if_true] at h
    cases hc : read_uN 4 s with
    | none => simp [hc] at h
    | some q =>
      obtain ⟨n, s1⟩ := q
      simp only [hc, basrt_some] at h
      cases hi : read_linked_items n s1 with
      | error e => simp [hi] at h
      | ok q2 =>
        obtain ⟨items, s2⟩ := q2
        simp only [hi, Except.ok.injEq, Prod.mk.injEq] at h
        obtain ⟨hp, hr⟩ := h
        rw [← hp, ← hr]
        obtain ⟨cC, hdC, hrC⟩ := read_uN_replay hc
        obtain ⟨cI, hdI, hrI⟩ := read_linked_items_replay n s1 items s2 hi
        refine ⟨cC ++ cI, ?_, ?_⟩
        · rw [hdC, hdI]
          simp [List.append_assoc]
        · intro r'
          rw [List.append_assoc cC cI r']
          unfold read_linked_st
          simp only [if_true]
          rw [hrC (cI ++ r')]
          simp only [basrt_some]
          simp only [hrI r']

/-- Replay of the entries section decode. -/
theorem read_entries_st_replay (fuel : Nat) (s : Bytes) (val : Value)
    (r : Bytes) (h : read_entries_st fuel s = .ok (val, r)) :
    ∃ c, s = c ++ r ∧ ∀ f' r', fuel ≤ f' →
      read_entries_st f' (c ++ r') = .ok (val, r') := by
  unfold read_entries_st at h
  cases hc : read_uN 4 s with
  | none => simp [hc] at h
  | some q =>
    obtain ⟨cnt, s1⟩ := q
    simp only [hc, basrt_some] at h
    cases hh : read_hashes cnt s1 with
    | none => simp [hh] at h
    | some q2 =>
      obtain ⟨hashes, s2⟩ := q2
      simp only [hh, basrt_some] at h
      cases he : read_entry_list fuel hashes s2 with
      | error e => simp [he] at h
      | ok q3 =>
        obtain ⟨pairs, s3⟩ := q3
        simp only [he, Except.ok.injEq, Prod.mk.injEq] at h
        obtain ⟨hp, hr⟩ := h
        rw [← hp, ← hr]
        obtain ⟨cC, hdC, hrC⟩ := read_uN_replay hc
        obtain ⟨cH, hdH, hrH⟩ := read_hashes_replay hh
        obtain ⟨cE, hdE, hrE⟩ := read_entry_list_replay fuel hashes s2 pairs s3 he
        refine ⟨cC ++ (cH ++ cE), ?_, ?_⟩
        · rw [hdC, hdH, hdE]
          simp [List.append_assoc]
        · intro f' r' hle
          rw [List.append_assoc cC (cH ++ cE) r']
          unfold read_entries_st
          rw [hrC ((cH ++ cE) ++ r')]
          simp only [basrt_some]
          rw [List.append_assoc cH cE r']
          rw [hrH (cE ++ r')]
          simp only [basrt_some]
          simp only [hrE f' r' hle]

/-- Replay of the post-magic section steps. -/
theorem read_sections_rest_replay (fuel : Nat) (secs0 : Sections)
    (magic s : Bytes) (secs : Sections) (r : Bytes)
    (h : read_sections_rest fuel secs0 magic s = (secs, .ok r)) :
    ∃ c, s = c ++ r ∧ ∀ f' r', fuel ≤ f' →
      read_sections_rest f' secs0 magic (c ++ r') = (secs, .ok r') := by
  unfold read_sections_rest at h
  cases hm : (magic == PROPb) with
  | false => simp [hm] at h
  | true =>
    simp only [hm, bchk_true] at h
    cases hv : read_uN 4 s with
    | none => simp [hv] at h
    | some q =>
      obtain ⟨ver, s1⟩ := q
      simp only [hv, basrt_some] at h
      cases hl : read_linked_st (decide (2 ≤ ver)) s1 with
      | error e => simp [hl] at h
      | ok q2 =>
        obtain ⟨linkedVal, s2⟩ := q2
        simp only [hl, bwrap_ok] at h
        cases he : read_entries_st fuel s2 with
        | error e => simp [he] at h
        | ok q3 =>
          obtain ⟨entriesVal, s3⟩ := q3
          simp only [he, bwrap_ok, Prod.mk.injEq, Except.ok.injEq] at h
          obtain ⟨hp, hr⟩ := h
          rw [← hp, ← hr]
          obtain ⟨cV, hdV, hrV⟩ := read_uN_replay hv
          obtain ⟨cL, hdL, hrL⟩ :=
            read_linked_st_replay (decide (2 ≤ ver)) s1 linkedVal s2 hl
          obtain ⟨cE, hdE, hrE⟩ := read_entries_st_replay fuel s2 entriesVal s3 he
          refine ⟨cV ++ (cL ++ cE), ?_, ?_⟩
          · rw [hdV, hdL, hdE]
            simp [List.append_assoc]
          · intro f' r' hle
            rw [List.append_assoc cV (cL ++ cE) r']
            unfold read_sections_rest
            simp only [hm, bchk_true]
            rw [hrV ((cL ++ cE) ++ r')]
            simp only [basrt_some]
            rw [List.append_assoc cL cE r']
            simp only [hrL (cE ++ r'), bwrap_ok]
            simp only [hrE f' r' hle, bwrap_ok]

/-- Replay of `read_sections` up to (excluding) the end-of-buffer check: a
successful run consumed a definite block and replays on any continuation. -/
theorem read_sections_core_replay (fuel : Nat) (s : Bytes) (secs : Sections)
    (r : Bytes) (h : read_sections_core fuel s = (secs, .ok r)) :
    ∃ c, s = c ++ r ∧ ∀ f' r', fuel ≤ f' →
      read_sections_core f' (c ++ r') = (secs, .ok r') := by
  unfold read_sections_core at h
  cases harr : read_arr 4 s with
  | none => simp [harr] at h
  | some q =>
    obtain ⟨magic0, s0⟩ := q
    simp only [harr, basrt_some] at h
    obtain ⟨hdM, hrM⟩ := read_arr_replay harr
    cases hptch : (magic0 == PTCHb) with
    | true =>
      simp only [hptch, eq_self_iff_true, if_true] at h
      cases hunk : read_uN 8 s0 with
      | none => simp [hunk] at h
      | some q2 =>
        obtain ⟨unk, s1⟩ := q2
        simp only [hunk, basrt_some] at h
        cases harr2 : read_arr 4 s1 with
        | none => simp [harr2] at h
        | some q3 =>
          obtain ⟨magic1, s2⟩ := q3
          simp only [harr2, basrt_some] at h
          obtain ⟨cU, hdU, hrU⟩ := read_uN_replay hunk
          obtain ⟨hdM2, hrM2⟩ := read_arr_replay harr2
          obtain ⟨cR, hdR, hrR⟩ := read_sections_rest_replay fuel
            [("type", Value.vstring PTCHb)] magic1 s2 secs r h
          refine ⟨magic0 ++ (cU ++ (magic1 ++ cR)), ?_, ?_⟩
          · rw [hdM, hdU, hdM2, hdR]
            simp [List.append_assoc]
          · intro f' r' hle
            rw [List.append_assoc magic0 (cU ++ (magic1 ++ cR)) r']
            unfold read_sections_core
            rw [hrM ((cU ++ (magic1 ++ cR)) ++ r')]
            simp only [basrt_some, hptch, eq_self_iff_true, if_true]
            rw [List.append_assoc cU (magic1 ++ cR) r']
            rw [hrU ((magic1 ++ cR) ++ r')]
            simp only [basrt_some]
            rw [List.append_assoc magic1 cR r']
            rw [hrM2 (cR ++ r')]
            simp only [basrt_some]
            exact hrR f' r' hle
    | false =>
      simp only [hptch, Bool.false_eq_true, if_false] at h
      obtain ⟨cR, hdR, hrR⟩ := read_sections_rest_replay fuel
        [("type", Value.vstring PROPb)] magic0 s0 secs r h
      refine ⟨magic0 ++ cR, ?_, ?_⟩
      · rw [hdM, hdR]
        simp [List.append_assoc]
      · intro f' r' hle
        rw [List.append_assoc magic0 cR r']
        unfold read_sections_core
        rw [hrM (cR ++ r')]
        simp only [basrt_some, hptch, Bool.false_eq_true, if_false]
        exact hrR f' r' hle

/-- Success inversion of `process`. -/
theorem process_st_ok_inv (prior : Sections) (s : Bytes) (secs : Sections)
    (h : process_st prior s = (secs, .ok ())) :
    read_sections_core (init_fuel s) s = (secs, .ok []) := by
  unfold process_st at h
  cases hst : read_sections_st (init_fuel s) s with
  | mk secs1 res =>
    rw [hst] at h
    cases res with
    | error e => simp at h
    | ok s3 =>
      simp only [Prod.mk.injEq] at h
      obtain ⟨hcore, hr⟩ := read_sections_st_ok_inv (init_fuel s) s secs1 s3 hst
      rw [← h.1, ← hr]
      exact hcore

/-- C8: truncation safety.  A buffer that decodes successfully never decodes
from any strict prefix: the end-of-buffer check cannot hold for both the
prefix run and the full run, because the section decode replays identically
on the extended buffer.  And no read ever touches bytes outside the
remaining buffer: every primitive read fails cleanly when fewer bytes remain
than requested, and a successful section decode consumes only bytes of the
buffer (the remainder is a suffix of the input). -/
theorem claim_C8_truncation :
    (∀ prior s secs, process_st prior s = (secs, .ok ()) →
      ∀ k, k < s.length → (process_st prior (s.take k)).2 ≠ .ok ()) ∧
    (∀ w s, s.length < w → read_uN w s = none) ∧
    (∀ w s, s.length < w → read_arr w s = none) ∧
    (∀ s n s1, read_uN 2 s = some (n, s1) → s1.length < n →
      read_str s = none) ∧
    (∀ n s, s.length < 4 * n → read_hashes n s = none) ∧
    (∀ fuel s secs r, read_sections_core fuel s = (secs, .ok r) →
      ∃ c, s = c ++ r) := by
  refine ⟨?_, ?_, ?_, ?_, ?_, ?_⟩
  · intro prior s secs h k hk hcontra
    have hcore := process_st_ok_inv prior s secs h
    obtain ⟨secs', hres'⟩ : ∃ secs',
        process_st prior (s.take k) = (secs', .ok ()) := by
      cases hpt : process_st prior (s.take k) with
      | mk a b =>
        rw [hpt] at hcontra
        cases b with
        | error e => simp at hcontra
        | ok u => exact ⟨a, rfl⟩
    have hcore' := process_st_ok_inv prior (s.take k) secs' hres'
    obtain ⟨c, hdec, hrep⟩ :=
      read_sections_core_replay (init_fuel (s.take k)) (s.take k) secs' [] hcore'
    rw [List.append_nil] at hdec
    have hlen : (s.take k).length = k := by
      rw [List.length_take]
      omega
    have hfuel : init_fuel (s.take k) ≤ init_fuel s := by
      unfold init_fuel
      rw [hlen]
      omega
    have hfull := hrep (init_fuel s) (s.drop k) hfuel
    rw [← hdec, List.take_append_drop] at hfull
    rw [hcore] at hfull
    simp only [Prod.mk.injEq, Except.ok.injEq] at hfull
    have hnil : s.drop k = [] := hfull.2.symm
    have : s.length - k = 0 := by
      rw [← List.length_drop, hnil]
      rfl
    omega
  · intro w s hlt
    unfold read_uN
    rw [if_neg (by omega)]
  · intro w s hlt
    unfold read_arr
    rw [if_neg (by omega)]
  · intro s n s1 hn hlt
    unfold read_str
    rw [hn]
    simp only
    rw [if_neg (by omega)]
  · intro n s hlt
    unfold read_hashes
    rw [if_neg (by omega)]
  · intro fuel s secs r h
    obtain ⟨c, hdec, _⟩ := read_sections_core_replay fuel s secs r h
    exact ⟨c, hdec⟩

/-- Closed instance of C8: the minimal valid buffer decodes, and its 5-byte
prefix does not; a 4-byte read on a 2-byte buffer fails cleanly. -/
theorem claim_C8_truncation_witness :
    (process_st [] (([80, 82, 79, 80, 0, 0, 0, 0, 0, 0, 0, 0] : Bytes).take 5)).2 ≠
      .ok () ∧
    read_uN 4 [1, 2] = none :=
  ⟨claim_C8_truncation.1 [] [80, 82, 79, 80, 0, 0, 0, 0, 0, 0, 0, 0]
      [("type", Value.vstring PROPb), ("version", Value.vscalar 7 0),
        ("linked", Value.vlist 16 []), ("entries", Value.vmap 17 131 [])]
      rfl 5 (by decide),
   claim_C8_truncation.2.1 4 [1, 2] (by decide)⟩


end Ritobin
